import Mathlib

/-!
Verification development for the hexchat rust-port backend
(crates: proto, net (cap_sasl), core).

Strings of the Rust source are modelled as `List Char`; byte vectors
(`Vec<u8>`) as `List Nat` with every entry `< 256`.  Library functions
(base64, UTF-8 decoding, SHA/HMAC/PBKDF2) are either implemented
faithfully (base64, UTF-8) or abstracted as function parameters
(the cryptographic primitives, which the claims never need to compute).
-/

namespace Hexchat

/-- Convert a Lean string literal into the `List Char` model of a Rust `String`. -/
def str (s : String) : List Char := s.toList

/-- Model of `str::as_bytes`, exact on ASCII data (the only data the
crates feed to it on the verified paths). -/
def strBytes (s : List Char) : List Nat := s.map Char.toNat

/-! ## Basic string operations shared by the crates -/

/-- Model of the Rust helper `take_until` in `crates/proto`:
split at the first occurrence of `ch`; if `ch` is absent the whole
input is the first component and the second is empty. -/
def take_until (ch : Char) : List Char → List Char × List Char
  | [] => ([], [])
  | c :: rest =>
    if c = ch then ([], rest)
    else
      let p := take_until ch rest
      (c :: p.1, p.2)

/-- Model of Rust `str::split(ch)`: always at least one piece, empty
pieces kept. -/
def splitOnChar (ch : Char) : List Char → List (List Char)
  | [] => [[]]
  | c :: rest =>
    if c = ch then [] :: splitOnChar ch rest
    else
      match splitOnChar ch rest with
      | [] => [[c]]
      | p :: ps => (c :: p) :: ps

/-- Model of joining pieces with a single separator character
(`Vec::join` in the Rust source, and the tag-rendering loop). -/
def joinSep (ch : Char) : List (List Char) → List Char
  | [] => []
  | [p] => p
  | p :: ps => p ++ ch :: joinSep ch ps

/-- Model of `str::trim_end_matches(|c| c == CR || c == LF)`. -/
def trimEndCrlf (s : List Char) : List Char :=
  (s.reverse.dropWhile (fun c => c = '\r' ∨ c = '\n')).reverse

/-- Model of `str::find(pat)` for a literal pattern: index of the first
occurrence of `pat` as a sublist. -/
def findSub (pat : List Char) : List Char → Option Nat
  | [] => if pat = [] then some 0 else none
  | c :: t =>
    if pat.isPrefixOf (c :: t) then some 0
    else (findSub pat t).map (· + 1)

/-- Auxiliary state machine for `split_whitespace`. -/
def splitWsGo : List Char → List Char → List (List Char)
  | [], cur => if cur = [] then [] else [cur.reverse]
  | c :: t, cur =>
    if c.isWhitespace then
      if cur = [] then splitWsGo t [] else cur.reverse :: splitWsGo t []
    else splitWsGo t (c :: cur)

/-- Model of Rust `str::split_whitespace`: whitespace-separated tokens,
no empty tokens. -/
def splitWs (s : List Char) : List (List Char) := splitWsGo s []

/-! ## crates/proto: IRC message model -/

/-- `proto::Tags` — tag list in original order, `None` marks a key-only tag. -/
structure Tags where
  pairs : List (List Char × Option (List Char))
deriving DecidableEq, Repr

/-- `proto::Prefix` (field `raw`). Named `Pfx` because `prefix` is a
reserved word in Lean. -/
structure Pfx where
  raw : List Char
deriving DecidableEq, Repr

/-- `proto::Message`. -/
structure Message where
  tags : Option Tags
  pfx : Option Pfx
  command : List Char
  params : List (List Char)
deriving DecidableEq, Repr

/-- One IRCv3 tag, as parsed by the loop in `parse_line`:
split at the first `=` when present, otherwise a key-only tag. -/
def parseTagPart (part : List Char) : List Char × Option (List Char) :=
  if '=' ∈ part then ((take_until '=' part).1, some (take_until '=' part).2)
  else (part, none)

/-- The `@tags ` stage of `parse_line`. -/
def parseTagsStage (s : List Char) : Option Tags × List Char :=
  if s.head? = some '@' then
    (some ⟨(splitOnChar ';' (take_until ' ' s.tail).1).map parseTagPart⟩,
      (take_until ' ' s.tail).2)
  else (none, s)

/-- The `:prefix ` stage of `parse_line`. -/
def parsePrefixStage (s : List Char) : Option Pfx × List Char :=
  if s.head? = some ':' then
    (some ⟨(take_until ' ' s.tail).1⟩, (take_until ' ' s.tail).2)
  else (none, s)

theorem take_until_snd_length (ch : Char) :
    ∀ s : List Char, (take_until ch s).2.length ≤ s.length := by
  intro s
  induction s with
  | nil => simp [take_until]
  | cons c rest ih =>
    simp only [take_until]
    by_cases h : c = ch
    · simp [h]
    · simp only [if_neg h]
      exact Nat.le_succ_of_le ih

theorem take_until_snd_lt (ch : Char) (s : List Char) (hs : s ≠ []) :
    (take_until ch s).2.length < s.length := by
  cases s with
  | nil => exact absurd rfl hs
  | cons c rest =>
    simp only [take_until]
    by_cases h : c = ch
    · simp [h, Nat.lt_succ_self]
    · simp only [if_neg h, List.length_cons]
      exact Nat.lt_succ_of_le (take_until_snd_length ch rest)

/-- The parameter loop of `parse_line`, with an explicit fuel argument
so that the recursion is structural (kernel-computable); the fuel is
irrelevant as soon as it bounds the input length
(`parseParamsGo_fuel`). -/
def parseParamsGo : List Char → Nat → List (List Char)
  | _, 0 => []
  | r, n + 1 =>
    if r = [] then []
    else if r.head? = some ':' then [r.tail]
    else
      let p := (take_until ' ' r).1
      let rest2 := (take_until ' ' r).2
      if p = [] then parseParamsGo rest2 n else p :: parseParamsGo rest2 n

/-- The parameter loop of `parse_line`: a leading `:` starts the trailing
parameter, empty middle tokens are dropped. -/
def parseParams (r : List Char) : List (List Char) := parseParamsGo r r.length

theorem parseParamsGo_nil (k : Nat) : parseParamsGo [] k = [] := by
  cases k <;> rfl

theorem parseParamsGo_fuel :
    ∀ n m : Nat, ∀ r : List Char, r.length ≤ n → r.length ≤ m →
      parseParamsGo r n = parseParamsGo r m := by
  intro n
  induction n using Nat.strong_induction_on with
  | _ n ih =>
    intro m r hn hm
    cases r with
    | nil => rw [parseParamsGo_nil, parseParamsGo_nil]
    | cons c t =>
      have hn1 : 1 ≤ n := le_trans (by simp) hn
      have hm1 : 1 ≤ m := le_trans (by simp) hm
      obtain ⟨n1, rfl⟩ : ∃ n1, n = n1 + 1 := ⟨n - 1, by omega⟩
      obtain ⟨m1, rfl⟩ : ∃ m1, m = m1 + 1 := ⟨m - 1, by omega⟩
      show parseParamsGo (c :: t) (n1 + 1) = parseParamsGo (c :: t) (m1 + 1)
      have hlt := take_until_snd_lt ' ' (c :: t) (by simp)
      have hr2n : (take_until ' ' (c :: t)).2.length ≤ n1 := by
        simp only [List.length_cons] at hn hlt; omega
      have hr2m : (take_until ' ' (c :: t)).2.length ≤ m1 := by
        simp only [List.length_cons] at hm hlt; omega
      have hrec := ih n1 (by omega) m1 _ hr2n hr2m
      unfold parseParamsGo
      by_cases hcol : (c :: t).head? = some ':'
      · simp [hcol]
      · by_cases hp : (take_until ' ' (c :: t)).1 = []
        · simp [hcol, hp, hrec]
        · simp [hcol, hp, hrec]

/-- The characteristic (source-level) equation of `parseParams`. -/
theorem parseParams_eq (r : List Char) :
    parseParams r =
      if r = [] then []
      else if r.head? = some ':' then [r.tail]
      else if (take_until ' ' r).1 = [] then parseParams ((take_until ' ' r).2)
      else (take_until ' ' r).1 :: parseParams ((take_until ' ' r).2) := by
  cases r with
  | nil => rfl
  | cons c t =>
    show parseParamsGo (c :: t) (t.length + 1) = _
    have hlt := take_until_snd_lt ' ' (c :: t) (by simp)
    have hfuel : parseParamsGo ((take_until ' ' (c :: t)).2) t.length =
        parseParams ((take_until ' ' (c :: t)).2) := by
      apply parseParamsGo_fuel
      · simp only [List.length_cons] at hlt; omega
      · exact le_refl _
    unfold parseParamsGo
    by_cases hcol : (c :: t).head? = some ':'
    · simp [hcol]
    · by_cases hp : (take_until ' ' (c :: t)).1 = []
      · simp [hcol, hp, hfuel]
      · simp [hcol, hp, hfuel]

/-- `proto::parse_line`. `none` models the single `bail!("missing command")`. -/
def parse_line (s0 : List Char) : Option Message :=
  let s1 := trimEndCrlf s0
  let t := parseTagsStage s1
  let p := parsePrefixStage t.2
  let c := take_until ' ' p.2
  if c.1 = [] then none
  else some ⟨t.1, p.1, c.1, parseParams c.2⟩

/-- Rendering of one tag in `Message::to_line`. -/
def renderTagPart : List Char × Option (List Char) → List Char
  | (k, none) => k
  | (k, some v) => k ++ '=' :: v

/-- Rendering of the tag block in `Message::to_line` (`;`-joined). -/
def renderTags (ps : List (List Char × Option (List Char))) : List Char :=
  joinSep ';' (ps.map renderTagPart)

/-- Rendering of the final parameter in `Message::to_line`: the `:` sigil
is added exactly when the parameter contains a space or is empty. -/
def renderLastParam (p : List Char) : List Char :=
  if ' ' ∈ p ∨ p = [] then ':' :: p else p

/-- The parameter loop of `Message::to_line`. -/
def renderParams : List (List Char) → List Char
  | [] => []
  | [p] => ' ' :: renderLastParam p
  | p :: ps => ' ' :: (p ++ renderParams ps)

/-- `proto::Message::to_line`. -/
def to_line (m : Message) : List Char :=
  (match m.tags with
   | some t => '@' :: (renderTags t.pairs ++ [' '])
   | none => []) ++
  (match m.pfx with
   | some p => ':' :: (p.raw ++ [' '])
   | none => []) ++
  m.command ++ renderParams m.params ++ ['\r', '\n']

/-- The rendered parameter section after its leading space:
`renderParams (p :: ps) = ' ' :: paramsBody p ps`. -/
def paramsBody (p : List Char) : List (List Char) → List Char
  | [] => renderLastParam p
  | q :: qs => p ++ ' ' :: paramsBody q qs

/-- Side condition for the parse/serialize round trip: the final
parameter, when `to_line` renders it without the `:` sigil (nonempty,
no space), must not itself start with `:`. -/
def lastPOkB (m : Message) : Bool :=
  match m.params.getLast? with
  | some p => if p ≠ [] ∧ ' ' ∉ p then p.head? ≠ some ':' else true
  | none => true

/-- Side condition for the parse/serialize round trip: the final token
of the rendered line (last parameter if any, else the command) must
not end in CR or LF, which the re-parse would trim away. -/
def goodEndB (m : Message) : Bool :=
  match (match m.params.getLast? with
         | some p => p
         | none => m.command).getLast? with
  | some c => ¬ (c = '\r' ∨ c = '\n')
  | none => true

/-- The invariants every message produced by `parse_line` satisfies
(what the serializer needs for a faithful round trip). -/
structure MsgWf (m : Message) : Prop where
  cmd_ne : m.command ≠ []
  cmd_nosp : ' ' ∉ m.command
  cmd_nocolon : m.pfx = none → m.command.head? ≠ some ':'
  cmd_noat : m.tags = none → m.pfx = none → m.command.head? ≠ some '@'
  tags_ne : ∀ tg, m.tags = some tg → tg.pairs ≠ []
  tags_wf : ∀ tg, m.tags = some tg → ∀ kv ∈ tg.pairs,
      ' ' ∉ kv.1 ∧ ';' ∉ kv.1 ∧ '=' ∉ kv.1 ∧
        ∀ v, kv.2 = some v → ' ' ∉ v ∧ ';' ∉ v
  pfx_nosp : ∀ pf, m.pfx = some pf → ' ' ∉ pf.raw
  init_wf : ∀ q ∈ m.params.dropLast, q ≠ [] ∧ ' ' ∉ q ∧ q.head? ≠ some ':'

/-! ## Standard base64 (library model for `base64::engine::general_purpose::STANDARD`) -/

/-- The standard base64 alphabet. -/
def b64Chars : List Char :=
  str "ABCDEFGHIJKLMNOPQRSTUVWXYZabcdefghijklmnopqrstuvwxyz0123456789+/"

/-- Character of a sextet (values `< 64`). -/
def sextetChar (n : Nat) : Char := b64Chars.getD n 'A'

/-- Auxiliary index search in the alphabet. -/
def sextetValGo (c : Char) : List Char → Nat → Option Nat
  | [], _ => none
  | d :: t, i => if d = c then some i else sextetValGo c t (i + 1)

/-- Sextet of an alphabet character, `none` for anything else
(including `=`). -/
def sextetVal (c : Char) : Option Nat := sextetValGo c b64Chars 0

/-- Standard base64 encoding with padding, on byte lists. -/
def encode64 : List Nat → List Char
  | [] => []
  | [a] => [sextetChar (a / 4), sextetChar (a % 4 * 16), '=', '=']
  | [a, b] => [sextetChar (a / 4), sextetChar (a % 4 * 16 + b / 16),
               sextetChar (b % 16 * 4), '=']
  | a :: b :: c :: rest =>
    sextetChar (a / 4) :: sextetChar (a % 4 * 16 + b / 16) ::
    sextetChar (b % 16 * 4 + c / 64) :: sextetChar (c % 64) :: encode64 rest

/-- Strict standard base64 decoding (canonical padding, zero trailing
bits, length a multiple of four), mirroring the checks done by the
`STANDARD` engine. -/
def decode64 : List Char → Option (List Nat)
  | [] => some []
  | c1 :: c2 :: c3 :: c4 :: rest =>
    match sextetVal c1, sextetVal c2 with
    | some s1, some s2 =>
      if c3 = '=' ∧ c4 = '=' ∧ rest = [] then
        if s2 % 16 = 0 then some [s1 * 4 + s2 / 16] else none
      else if c4 = '=' ∧ rest = [] then
        match sextetVal c3 with
        | some s3 =>
          if s3 % 4 = 0 then some [s1 * 4 + s2 / 16, s2 % 16 * 16 + s3 / 4]
          else none
        | none => none
      else
        match sextetVal c3, sextetVal c4, decode64 rest with
        | some s3, some s4, some tail =>
          some ((s1 * 4 + s2 / 16) :: (s2 % 16 * 16 + s3 / 4) ::
                (s3 % 4 * 64 + s4) :: tail)
        | _, _, _ => none
    | _, _ => none
  | _ => none

theorem sextetVal_sextetChar (n : Nat) (h : n < 64) :
    sextetVal (sextetChar n) = some n := by
  interval_cases n <;> decide

/-- `=` is not in the base64 alphabet. -/
theorem sextetVal_pad : sextetVal '=' = none := by decide

/-- A sextet-alphabet character is never the padding character. -/
theorem sextetChar_ne_pad (n : Nat) (h : n < 64) : sextetChar n ≠ '=' := by
  intro hcon
  have hnone : sextetVal (sextetChar n) = none := hcon ▸ sextetVal_pad
  rw [sextetVal_sextetChar _ h] at hnone
  exact Option.noConfusion hnone

/-- Strict decoding is a left inverse of encoding on byte lists. -/
theorem decode64_encode64 :
    ∀ bs : List Nat, (∀ b ∈ bs, b < 256) → decode64 (encode64 bs) = some bs := by
  intro bs
  induction bs using encode64.induct with
  | case1 => intro _; rfl
  | case2 a =>
    intro h
    have ha : a < 256 := h a (by simp)
    have h1 : a / 4 < 64 := by omega
    have h2 : a % 4 * 16 < 64 := by omega
    simp only [encode64, decode64, sextetVal_sextetChar _ h1, sextetVal_sextetChar _ h2]
    have hmod : a % 4 * 16 % 16 = 0 := by omega
    simp only [hmod, Option.some.injEq, List.cons.injEq, and_true, reduceIte]
    omega
  | case3 a b =>
    intro h
    have ha : a < 256 := h a (by simp)
    have hb : b < 256 := h b (by simp)
    have h1 : a / 4 < 64 := by omega
    have h2 : a % 4 * 16 + b / 16 < 64 := by omega
    have h3 : b % 16 * 4 < 64 := by omega
    simp only [encode64, decode64, sextetVal_sextetChar _ h1, sextetVal_sextetChar _ h2,
      sextetVal_sextetChar _ h3, sextetChar_ne_pad _ h3, false_and, if_false,
      and_self, if_true]
    have hmod : b % 16 * 4 % 4 = 0 := by omega
    simp only [hmod, Option.some.injEq, List.cons.injEq, and_true, reduceIte]
    omega
  | case4 a b c rest ih =>
    intro h
    have ha : a < 256 := h a (by simp)
    have hb : b < 256 := h b (by simp)
    have hc : c < 256 := h c (by simp)
    have h1 : a / 4 < 64 := by omega
    have h2 : a % 4 * 16 + b / 16 < 64 := by omega
    have h3 : b % 16 * 4 + c / 64 < 64 := by omega
    have h4 : c % 64 < 64 := by omega
    have hrest : ∀ x ∈ rest, x < 256 := fun x hx => h x (by simp [hx])
    simp only [encode64, decode64, sextetVal_sextetChar _ h1, sextetVal_sextetChar _ h2,
      sextetVal_sextetChar _ h3, sextetVal_sextetChar _ h4,
      sextetChar_ne_pad _ h3, sextetChar_ne_pad _ h4, false_and, if_false,
      ih hrest, Option.some.injEq, List.cons.injEq, and_true]
    omega

/-! ## UTF-8 (library model for `String::from_utf8` / `from_utf8_lossy`) -/

/-- Strict UTF-8 decoding of a byte list (exact model of
`std::str::from_utf8` validity: no overlong forms, no surrogates,
max `U+10FFFF`). -/
def utf8Decode : List Nat → Option (List Char)
  | [] => some []
  | b1 :: rest =>
    if h1 : b1 < 0x80 then
      (utf8Decode rest).map (fun cs => Char.ofNat b1 :: cs)
    else
      match rest with
      | [] => none
      | b2 :: rest2 =>
        if 0xC2 ≤ b1 ∧ b1 ≤ 0xDF then
          if 0x80 ≤ b2 ∧ b2 ≤ 0xBF then
            (utf8Decode rest2).map
              (fun cs => Char.ofNat ((b1 - 0xC0) * 64 + (b2 - 0x80)) :: cs)
          else none
        else if 0xE0 ≤ b1 ∧ b1 ≤ 0xEF then
          let lo2 := if b1 = 0xE0 then 0xA0 else 0x80
          let hi2 := if b1 = 0xED then 0x9F else 0xBF
          if lo2 ≤ b2 ∧ b2 ≤ hi2 then
            match rest2 with
            | [] => none
            | b3 :: rest3 =>
              if 0x80 ≤ b3 ∧ b3 ≤ 0xBF then
                (utf8Decode rest3).map (fun cs =>
                  Char.ofNat ((b1 - 0xE0) * 4096 + (b2 - 0x80) * 64 + (b3 - 0x80)) :: cs)
              else none
          else none
        else if 0xF0 ≤ b1 ∧ b1 ≤ 0xF4 then
          let lo2 := if b1 = 0xF0 then 0x90 else 0x80
          let hi2 := if b1 = 0xF4 then 0x8F else 0xBF
          if lo2 ≤ b2 ∧ b2 ≤ hi2 then
            match rest2 with
            | [] => none
            | b3 :: rest3 =>
              if 0x80 ≤ b3 ∧ b3 ≤ 0xBF then
                match rest3 with
                | [] => none
                | b4 :: rest4 =>
                  if 0x80 ≤ b4 ∧ b4 ≤ 0xBF then
                    (utf8Decode rest4).map (fun cs =>
                      Char.ofNat ((b1 - 0xF0) * 262144 + (b2 - 0x80) * 4096 +
                        (b3 - 0x80) * 64 + (b4 - 0x80)) :: cs)
                  else none
              else none
          else none
        else none

/-- Model of `String::from_utf8_lossy(..).to_string()`: exact on valid
UTF-8; for invalid input we approximate the replacement behaviour
byte-wise (no claim depends on that branch). -/
def utf8Lossy (bs : List Nat) : List Char :=
  match utf8Decode bs with
  | some cs => cs
  | none => bs.map (fun b => if b < 0x80 then Char.ofNat b else Char.ofNat 0xFFFD)

/-! ## crates/net: `Connection::send_raw` and `Connection::next_message` -/

/-- The bytes `Connection::send_raw` writes for a given line: the code
unconditionally appends CRLF (`data.extend_from_slice(b"\r\n")`). -/
def send_raw_bytes (line : List Char) : List Nat :=
  strBytes line ++ [13, 10]

/-- Errors `Connection::next_message` can return (I/O errors aside,
which the pure model does not produce). -/
inductive TransErr where
  | eof
  | parseFailed
deriving DecidableEq, Repr

/-- The line extracted from the buffer once a `\n` is found at `pos`:
`split_to(pos + 1)` followed by popping the trailing `\n` and, when
present, the trailing `\r`. -/
def bufLine (buf : List Nat) (pos : Nat) : List Nat :=
  let l1 := buf.take (pos + 1)
  let l2 := if l1.getLast? = some 10 then l1.dropLast else l1
  if l2.getLast? = some 13 then l2.dropLast else l2

/-- Handling of a complete buffered line at newline position `pos`:
decode (`String::from_utf8(..).unwrap_or_default()`), parse, and either
return the message with the rest of the buffer or propagate the parse
failure. -/
def nextMessageLine (buf : List Nat) (input : List (List Nat)) (pos : Nat) :
    Except TransErr (Message × List Nat × List (List Nat)) :=
  match parse_line ((utf8Decode (bufLine buf pos)).getD []) with
  | some m => .ok (m, buf.drop (pos + 1), input)
  | none => .error .parseFailed

/-- Model of `Connection::next_message`.  `buf` is the internal buffer,
`input` the list of chunks subsequent socket reads yield (an empty
chunk models `read` returning `0`, and an exhausted list models the
peer having closed the stream).  Each iteration first scans the buffer
for a newline and otherwise reads the next chunk, exactly as the
source loop; the two input shapes are split only to make the recursion
structural.  On success it returns the message and the remaining
buffer/input. -/
def nextMessage : List Nat → List (List Nat) →
    Except TransErr (Message × List Nat × List (List Nat))
  | buf, [] =>
    match buf.findIdx? (fun b => b = 10) with
    | some pos => nextMessageLine buf [] pos
    | none => .error .eof
  | buf, chunk :: rest =>
    match buf.findIdx? (fun b => b = 10) with
    | some pos => nextMessageLine buf (chunk :: rest) pos
    | none =>
      if chunk = [] then .error .eof
      else nextMessage (buf ++ chunk) rest

/-! ## crates/net `cap_sasl`: CAP negotiation and SASL -/

/-- `cap_sasl::SaslMech`. -/
inductive SaslMech where
  | plain (authzid : Option (List Char)) (username password : List Char)
  | scramSha256 (authzid : Option (List Char)) (username password : List Char)
  | scramSha512 (authzid : Option (List Char)) (username password : List Char)
  | external (authzid : Option (List Char))
deriving DecidableEq, Repr

/-- The cryptographic library primitives (`sha2`, `hmac`, `pbkdf2`
crates), abstracted as computable parameters: `hmac* key data`,
`h*` the bare hash, `pbkdf2* password salt iterations`. -/
structure Crypto where
  hmac256 : List Nat → List Nat → List Nat
  hmac512 : List Nat → List Nat → List Nat
  h256 : List Nat → List Nat
  h512 : List Nat → List Nat
  pbkdf2sha256 : List Nat → List Nat → Nat → List Nat
  pbkdf2sha512 : List Nat → List Nat → Nat → List Nat

/-- `cap_sasl::ScramState`. -/
structure ScramState where
  algo : List Char
  authMessage : List Char
  expectedServerSig : List Nat
deriving DecidableEq, Repr

/-- The mutable local state of `cap_sasl::negotiate`'s loop, plus the
stream of nonces `gen_nonce` would produce. -/
structure NegoSt where
  capInProgress : Bool
  lsPartial : List (List Char)
  reqSent : Bool
  scramClientNonce : Option (List Char)
  scramCfb : Option (List Char)
  scramState : Option ScramState
  nonces : List (List Char)
deriving DecidableEq, Repr

/-- `cap_sasl::saslname`: escape `=` as `=3D` and `,` as `=2C`. -/
def saslname (s : List Char) : List Char :=
  ((s.map (fun c => if c = '=' then str "=3D" else [c])).flatten.map
    (fun c => if c = ',' then str "=2C" else [c])).flatten

/-- Digit-accumulation helper for `str::parse::<u32>`. -/
def digitsValGo : List Char → Nat → Option Nat
  | [], acc => some acc
  | c :: t, acc =>
    if c.isDigit then digitsValGo t (acc * 10 + (c.toNat - 48)) else none

/-- Model of Rust `str::parse::<u32>`: optional leading `+`, one or more
digits, and failure ("number too large") above `u32::MAX = 4294967295`. -/
def parseU32 (s : List Char) : Option Nat :=
  let s1 := if s.head? = some '+' then s.tail else s
  if s1 = [] then none
  else
    match digitsValGo s1 0 with
    | some n => if n ≤ 4294967295 then some n else none
    | none => none

/-- Model of Rust `str::split_once('=')`. -/
def splitOnceEq (s : List Char) : Option (List Char × List Char) :=
  if '=' ∈ s then some ((take_until '=' s).1, (take_until '=' s).2) else none

/-- The distinct failure modes of `cap_sasl::parse_scram_challenge`
(each a distinct `anyhow` error in the source). -/
inductive ScramParseErr where
  | badIterations
  | badSaltB64
  | missingSalt
  | missingIterations
  | missingNonce
deriving DecidableEq, Repr

/-- `cap_sasl::ScramParsed`. -/
structure ScramParsed where
  salt : List Nat
  iter : Nat
  nonce : List Char
deriving DecidableEq, Repr

/-- The field-scanning loop of `parse_scram_challenge`; a later
duplicate key overwrites an earlier one, and an unparsable `i=` value
aborts immediately (`v.parse::<u32>()?`). -/
def scramScan : List (List Char) → Option (List Char) → Option Nat → Option (List Char) →
    Except ScramParseErr (Option (List Char) × Option Nat × Option (List Char))
  | [], sB, it, nc => .ok (sB, it, nc)
  | kv :: rest, sB, it, nc =>
    match splitOnceEq kv with
    | some (k, v) =>
      if k = str "r" then scramScan rest sB it (some v)
      else if k = str "s" then scramScan rest (some v) it nc
      else if k = str "i" then
        match parseU32 v with
        | some n => scramScan rest sB (some n) nc
        | none => .error .badIterations
      else scramScan rest sB it nc
    | none => scramScan rest sB it nc

/-- `cap_sasl::parse_scram_challenge`. -/
def parse_scram_challenge (ch : List Char) : Except ScramParseErr ScramParsed :=
  match scramScan (splitOnChar ',' ch) none none none with
  | .error e => .error e
  | .ok (sB, it, nc) =>
    match sB with
    | none => .error .missingSalt
    | some sb =>
      match decode64 sb with
      | none => .error .badSaltB64
      | some salt =>
        match it with
        | none => .error .missingIterations
        | some i =>
          match nc with
          | none => .error .missingNonce
          | some n => .ok ⟨salt, i, n⟩

/-- Errors `cap_sasl::negotiate` can end with (each `bail!`/`context`
site its own constructor). -/
inductive NegErr where
  | scramParse (e : ScramParseErr)
  | missingClientNonce
  | badNonce
  | cfbMissing
  | serverSignatureMismatch
  | invalidServerSigB64
  | saslFailed (code : List Char)
  | connectionClosed
deriving DecidableEq, Repr

/-- What the loop does after handling one message. -/
inductive Outcome where
  | cont
  | done
  | fail (e : NegErr)
deriving DecidableEq, Repr

/-- The GS2 header chosen at lines 296/321/361 of `net/src/lib.rs`:
`p=tls-server-end-point,,` exactly when channel-binding material is
cached on the connection, else `n,,`. -/
def scram_gs2 (tlsep : Option (List Nat)) : List Char :=
  if tlsep.isSome then str "p=tls-server-end-point,," else str "n,,"

/-- The `c=` value of the SCRAM client-final message: base64 of the GS2
header bytes followed by the cached leaf-certificate hash when bound,
base64 of `n,,` otherwise. -/
def scram_cval (tlsep : Option (List Nat)) : List Char :=
  match tlsep with
  | some t => encode64 (strBytes (str "p=tls-server-end-point,,") ++ t)
  | none => encode64 (strBytes (str "n,,"))

/-- The in-place XOR loop building the client proof
(`for (a,b) in proof.iter_mut().zip(&client_signature)`): bytes of `a`
beyond `b`'s length are left unchanged. -/
def xorInto (a b : List Nat) : List Nat :=
  List.zipWith (fun x y => Nat.xor x y) a b ++ a.drop b.length

/-- The SCRAM `AuthMessage`:
`client-first-bare , server-first , client-final-without-proof`. -/
def scram_auth_message (tlsep : Option (List Nat)) (cfb challenge nonce : List Char) :
    List Char :=
  cfb ++ ',' :: challenge ++ ',' ::
    (str "c=" ++ scram_cval tlsep ++ str ",r=" ++ nonce)

/-- The expected server signature:
`HMAC(HMAC(salted, "Server Key"), AuthMessage)`. -/
def scram_server_sig (hmacF : List Nat → List Nat → List Nat)
    (salted : List Nat) (authMsg : List Char) : List Nat :=
  hmacF (hmacF salted (strBytes (str "Server Key"))) (strBytes authMsg)

/-- The client proof: `ClientKey XOR HMAC(H(ClientKey), AuthMessage)`. -/
def scram_client_proof (hmacF : List Nat → List Nat → List Nat)
    (hF : List Nat → List Nat) (salted : List Nat) (authMsg : List Char) : List Nat :=
  let clientKey := hmacF salted (strBytes (str "Client Key"))
  xorInto clientKey (hmacF (hF clientKey) (strBytes authMsg))

/-- One SCRAM server-first processing step (the bodies of the
`ScramSha256` / `ScramSha512` arms at lines 313–351 / 353–391 of
`net/src/lib.rs`, parametrised by the hash family exactly as the code
duplicates it).  Returns the lines sent and the updated state, or the
error the arm bails with. -/
def scram_step (hmacF : List Nat → List Nat → List Nat) (hF : List Nat → List Nat)
    (pbkdf2F : List Nat → List Nat → Nat → List Nat) (algo : List Char)
    (tlsep : Option (List Nat)) (password : List Char) (st : NegoSt)
    (challenge : List Char) : Except NegErr (List (List Char) × NegoSt) :=
  match parse_scram_challenge challenge with
  | .error e => .error (.scramParse e)
  | .ok parsed =>
    match st.scramClientNonce with
    | none => .error .missingClientNonce
    | some cnonce =>
      if ¬ cnonce.isPrefixOf parsed.nonce then .error .badNonce
      else
        match st.scramCfb with
        | none => .error .cfbMissing
        | some cfb =>
          let salted := pbkdf2F (strBytes password) parsed.salt parsed.iter
          let cfWithoutProof := str "c=" ++ scram_cval tlsep ++ str ",r=" ++ parsed.nonce
          let authMessage := scram_auth_message tlsep cfb challenge parsed.nonce
          let prf := scram_client_proof hmacF hF salted authMessage
          let finalMsg := cfWithoutProof ++ str ",p=" ++ encode64 prf
          let expected := scram_server_sig hmacF salted authMessage
          .ok ([str "AUTHENTICATE " ++ encode64 (strBytes finalMsg)],
               { st with scramState := some ⟨algo, authMessage, expected⟩ })

/-- Processing of a non-`+` AUTHENTICATE payload after base64 decoding
(lines 308–415): the mechanism-specific arm first, then the
server-final `v=` verification on the same challenge string. -/
def handleChallenge (cr : Crypto) (tlsep : Option (List Nat)) (sasl : Option SaslMech)
    (st : NegoSt) (challenge : List Char) : List (List Char) × NegoSt × Outcome :=
  let step : Except NegErr (List (List Char) × NegoSt) :=
    match sasl with
    | some (.scramSha256 _ _ pw) =>
      scram_step cr.hmac256 cr.h256 cr.pbkdf2sha256 (str "SHA-256") tlsep pw st challenge
    | some (.scramSha512 _ _ pw) =>
      scram_step cr.hmac512 cr.h512 cr.pbkdf2sha512 (str "SHA-512") tlsep pw st challenge
    | _ => .ok ([], st)
  match step with
  | .error e => ([], st, .fail e)
  | .ok (sends, st1) =>
    match findSub (str "v=") challenge with
    | none => (sends, st1, .cont)
    | some pos =>
      match st1.scramState with
      | none => (sends, st1, .cont)
      | some sst =>
        let vsB64 := (challenge.drop (pos + 2)).takeWhile (fun c => c ≠ ',')
        match decode64 vsB64 with
        | some serverSig =>
          if serverSig = sst.expectedServerSig then (sends, st1, .cont)
          else
            ((sends ++ if st1.capInProgress then [str "CAP END"] else []), st1,
             .fail .serverSignatureMismatch)
        | none =>
          ((sends ++ if st1.capInProgress then [str "CAP END"] else []), st1,
           .fail .invalidServerSigB64)

/-- Handling of one received message by the loop of
`cap_sasl::negotiate` (lines 243–429): the lines sent in response, the
updated loop state, and whether the loop continues, breaks on `001`, or
fails. -/
def handleMsg (cr : Crypto) (tlsep : Option (List Nat)) (want : List (List Char))
    (sasl : Option SaslMech) (st : NegoSt) (msg : Message) :
    List (List Char) × NegoSt × Outcome :=
  let cmd := msg.command
  if cmd = str "CAP" then
    let sub := (msg.params.get? 1).getD []
    if sub = str "LS" then
      let ls1 :=
        match msg.params.getLast? with
        | some capsStr =>
          (splitWs capsStr).foldl (fun acc c => if c ∈ acc then acc else acc ++ [c])
            st.lsPartial
        | none => st.lsPartial
      let isCont := msg.params.any (fun p => p = str "*")
      if ¬ isCont ∧ ¬ st.reqSent then
        let toReq := want.filter (fun w => w ∈ ls1)
        if toReq ≠ [] then
          ([str "CAP REQ :" ++ joinSep ' ' toReq],
           { st with lsPartial := ls1, reqSent := true }, .cont)
        else
          ([str "CAP END"], { st with lsPartial := ls1, capInProgress := false }, .cont)
      else ([], { st with lsPartial := ls1 }, .cont)
    else if sub = str "ACK" then
      let ackd := (msg.params.getLast?).getD []
      if (splitWs ackd).any (fun c => c = str "sasl") ∧ sasl.isSome then
        match sasl with
        | some (.plain _ _ _) => ([str "AUTHENTICATE PLAIN"], st, .cont)
        | some (.scramSha256 _ u _) =>
          let cnonce := (st.nonces.head?).getD []
          let cfb := str "n=" ++ saslname u ++ str ",r=" ++ cnonce
          ([str "AUTHENTICATE SCRAM-SHA-256"],
           { st with scramClientNonce := some cnonce, scramCfb := some cfb,
                     nonces := st.nonces.tail }, .cont)
        | some (.scramSha512 _ u _) =>
          let cnonce := (st.nonces.head?).getD []
          let cfb := str "n=" ++ saslname u ++ str ",r=" ++ cnonce
          ([str "AUTHENTICATE SCRAM-SHA-512"],
           { st with scramClientNonce := some cnonce, scramCfb := some cfb,
                     nonces := st.nonces.tail }, .cont)
        | some (.external _) => ([str "AUTHENTICATE EXTERNAL"], st, .cont)
        | none => ([], st, .cont)
      else ([], st, .cont)
    else if sub = str "NAK" then
      if st.capInProgress then
        ([str "CAP END"], { st with capInProgress := false }, .cont)
      else ([], st, .cont)
    else ([], st, .cont)
  else if cmd = str "AUTHENTICATE" then
    if msg.params.get? 0 = some (str "+") then
      match sasl with
      | some (.plain authzid u pw) =>
        ([str "AUTHENTICATE " ++ encode64 (strBytes
           (authzid.getD [] ++ Char.ofNat 0 :: u ++ Char.ofNat 0 :: pw))], st, .cont)
      | some (.scramSha256 _ _ _) =>
        match st.scramCfb with
        | some cfb =>
          ([str "AUTHENTICATE " ++ encode64 (strBytes (scram_gs2 tlsep ++ cfb))],
           st, .cont)
        | none => ([], st, .fail .cfbMissing)
      | some (.scramSha512 _ _ _) =>
        match st.scramCfb with
        | some cfb =>
          ([str "AUTHENTICATE " ++ encode64 (strBytes (scram_gs2 tlsep ++ cfb))],
           st, .cont)
        | none => ([], st, .fail .cfbMissing)
      | some (.external authzid) =>
        match authzid with
        | some a => ([str "AUTHENTICATE " ++ encode64 (strBytes a)], st, .cont)
        | none => ([str "AUTHENTICATE +"], st, .cont)
      | none => ([], st, .cont)
    else
      let dataB64 := (msg.params.get? 0).getD []
      let challenge := utf8Lossy ((decode64 dataB64).getD [])
      handleChallenge cr tlsep sasl st challenge
  else if cmd = str "900" ∨ cmd = str "903" then
    if st.capInProgress then
      ([str "CAP END"], { st with capInProgress := false }, .cont)
    else ([], st, .cont)
  else if cmd = str "904" ∨ cmd = str "905" ∨ cmd = str "906" ∨ cmd = str "907" then
    ((if st.capInProgress then [str "CAP END"] else []),
     { st with capInProgress := false }, .fail (.saslFailed cmd))
  else if cmd = str "001" then ([], st, .done)
  else ([], st, .cont)

/-- Events of a `negotiate` run: a line sent, or a message received. -/
inductive Ev where
  | send (line : List Char)
  | recv (m : Message)
deriving DecidableEq, Repr

/-- Is the event a send? -/
def Ev.isSend : Ev → Bool
  | .send _ => true
  | .recv _ => false

/-- Is the event a receive? -/
def Ev.isRecv : Ev → Bool
  | .send _ => false
  | .recv _ => true

/-- The read/handle loop of `cap_sasl::negotiate` over a script of
inbound messages; an exhausted script models `next_message` failing. -/
def negotiateLoop (cr : Crypto) (tlsep : Option (List Nat)) (want : List (List Char))
    (sasl : Option SaslMech) : List Message → NegoSt → List Ev × Except NegErr Unit
  | [], _ => ([], .error .connectionClosed)
  | m :: rest, st =>
    let r := handleMsg cr tlsep want sasl st m
    let evs := Ev.recv m :: r.1.map Ev.send
    match r.2.2 with
    | .cont =>
      let t := negotiateLoop cr tlsep want sasl rest r.2.1
      (evs ++ t.1, t.2)
    | .done => (evs, .ok ())
    | .fail e => (evs, .error e)

/-- The three registration lines sent unconditionally at the top of
`cap_sasl::negotiate` (lines 228–230), in source order. -/
def negotiateKickoff (nick user realname : List Char) : List (List Char) :=
  [str "NICK " ++ nick,
   str "USER " ++ user ++ str " 0 * :" ++ realname,
   str "CAP LS 302"]

/-- `cap_sasl::negotiate` as a trace function: the kickoff sends, then
the reactive loop over the inbound script. -/
def negotiate (cr : Crypto) (tlsep : Option (List Nat)) (want : List (List Char))
    (sasl : Option SaslMech) (nick user realname : List Char)
    (nonces : List (List Char)) (script : List Message) :
    List Ev × Except NegErr Unit :=
  let st0 : NegoSt := ⟨true, [], false, none, none, none, nonces⟩
  let t := negotiateLoop cr tlsep want sasl script st0
  ((negotiateKickoff nick user realname).map Ev.send ++ t.1, t.2)

/-- A trace is reactive from a state when it is a concatenation of
blocks, each consisting of one received message followed by exactly
the lines `handleMsg` sends in reaction to it from the state reached
at that point.  In particular every send in such a trace belongs to
the handling of the message received just before it, with no
unprompted sends anywhere. -/
inductive ReactiveTrace (cr : Crypto) (tlsep : Option (List Nat))
    (want : List (List Char)) (sasl : Option SaslMech) : NegoSt → List Ev → Prop
  | nil (st : NegoSt) : ReactiveTrace cr tlsep want sasl st []
  | block (st : NegoSt) (m : Message) (t : List Ev) :
      ReactiveTrace cr tlsep want sasl (handleMsg cr tlsep want sasl st m).2.1 t →
      ReactiveTrace cr tlsep want sasl st
        (Ev.recv m :: ((handleMsg cr tlsep want sasl st m).1.map Ev.send ++ t))

/-! ## crates/core: the engine state machine -/

/-- `core::Channel` — the user set is modelled as a duplicate-free list
in insertion order (`HashSet<String>` carries no order). -/
structure Channel where
  name : List Char
  users : List (List Char)
deriving DecidableEq, Repr

/-- `core::ServerState` — `channels` is modelled as an association list
in insertion order (`HashMap<ChannelId, Channel>` carries no order). -/
structure ServerState where
  network : List Char
  nick : List Char
  channels : List (List Char × Channel)
deriving DecidableEq, Repr

/-- `core::Event`.  The Rust field `from` is a Lean keyword and is
called `frm` here. -/
inductive CoreEvent where
  | welcome (s : List Char)
  | join (nick channel : List Char)
  | part (nick channel : List Char)
  | privMsg (frm target text : List Char)
  | notice (frm target text : List Char)
  | topic (channel text : List Char)
  | unknown (m : Message)
deriving DecidableEq, Repr

/-- The nick extraction `p.raw.split('!').next().unwrap_or(&p.raw)`:
everything before the first `!` (the whole string when absent). -/
def nickOfRaw (raw : List Char) : List Char := raw.takeWhile (fun c => c ≠ '!')

/-- The nick derived from a message's prefix (empty when absent). -/
def msgNick (msg : Message) : List Char :=
  (msg.pfx.map (fun p => nickOfRaw p.raw)).getD []

/-- `HashSet::insert` on the list model. -/
def insertSet (x : List Char) (xs : List (List Char)) : List (List Char) :=
  if x ∈ xs then xs else xs ++ [x]

/-- `HashMap::get` on the association-list model. -/
def lookupCh (chs : List (List Char × Channel)) (k : List Char) : Option Channel :=
  (chs.find? (fun e => e.1 = k)).map (fun e => e.2)

/-- The JOIN update:
`st.channels.entry(id).or_insert(empty).users.insert(who)`. -/
def joinChannels (chs : List (List Char × Channel)) (chan who : List Char) :
    List (List Char × Channel) :=
  if (chs.find? (fun e => e.1 = chan)).isSome then
    chs.map (fun e =>
      if e.1 = chan then (e.1, ⟨e.2.name, insertSet who e.2.users⟩) else e)
  else chs ++ [(chan, ⟨chan, insertSet who []⟩)]

/-- The PART update: `if let Some(c) = channels.get_mut(&id) { c.users.remove(&who) }`. -/
def partChannels (chs : List (List Char × Channel)) (chan who : List Char) :
    List (List Char × Channel) :=
  chs.map (fun e =>
    if e.1 = chan then (e.1, ⟨e.2.name, e.2.users.filter (fun u => u ≠ who)⟩) else e)

/-- `core::Engine::on_message` as a pure state transformer (the Rust
method mutates the state behind `RwLock` and returns the event). -/
def on_message (st : ServerState) (msg : Message) : ServerState × CoreEvent :=
  if msg.command = str "001" then
    (st, .welcome ((msg.params.get? 1).getD []))
  else if msg.command = str "JOIN" then
    let who := msgNick msg
    let chan := (msg.params.getLast?).getD []
    ({ st with channels := joinChannels st.channels chan who }, .join who chan)
  else if msg.command = str "PART" then
    let who := msgNick msg
    let chan := (msg.params.head?).getD []
    ({ st with channels := partChannels st.channels chan who }, .part who chan)
  else if msg.command = str "PRIVMSG" then
    (st, .privMsg (msgNick msg) ((msg.params.get? 0).getD []) ((msg.params.get? 1).getD []))
  else if msg.command = str "NOTICE" then
    (st, .notice (msgNick msg) ((msg.params.get? 0).getD []) ((msg.params.get? 1).getD []))
  else if msg.command = str "332" then
    (st, .topic ((msg.params.get? 1).getD []) ((msg.params.get? 2).getD []))
  else (st, .unknown msg)

/-- A trivial computable instantiation of the cryptographic parameters,
used to evaluate the negotiation model on concrete inputs. -/
def dummyCrypto : Crypto :=
  ⟨fun _ _ => [0], fun _ _ => [0], fun _ => [0], fun _ => [0],
   fun _ _ _ => [0], fun _ _ _ => [0]⟩

/-! ## Helper lemmas about the association-list channel map -/

theorem lookupCh_cons (e : List Char × Channel) (t : List (List Char × Channel))
    (k : List Char) :
    lookupCh (e :: t) k = if e.1 = k then some e.2 else lookupCh t k := by
  by_cases h : e.1 = k
  · simp [lookupCh, List.find?_cons_of_pos, h]
  · simp [lookupCh, List.find?_cons_of_neg, h]

theorem lookupCh_mapUpdate (g : Channel → Channel) (chan k : List Char) :
    ∀ chs : List (List Char × Channel),
      lookupCh (chs.map (fun e => if e.1 = chan then (e.1, g e.2) else e)) k =
        match lookupCh chs k with
        | some c => some (if k = chan then g c else c)
        | none => none := by
  intro chs
  induction chs with
  | nil => simp [lookupCh]
  | cons e t ih =>
    by_cases hek : e.1 = k
    · by_cases hec : e.1 = chan
      · simp [List.map_cons, hec, lookupCh_cons, hek, hek ▸ hec]
      · have hkc : ¬ k = chan := fun h => hec (hek.trans h)
        simp [List.map_cons, hec, lookupCh_cons, hek, hkc]
    · by_cases hec : e.1 = chan
      · have hck : ¬ chan = k := fun hh => hek (hec.trans hh)
        simp [List.map_cons, hec, lookupCh_cons, hek, hck, ih]
      · simp [List.map_cons, hec, lookupCh_cons, hek, ih]

theorem lookupCh_append_one (chan k : List Char) (c0 : Channel) :
    ∀ chs : List (List Char × Channel),
      lookupCh (chs ++ [(chan, c0)]) k =
        match lookupCh chs k with
        | some c => some c
        | none => if chan = k then some c0 else none := by
  intro chs
  induction chs with
  | nil => simp [lookupCh_cons, lookupCh]
  | cons e t ih =>
    by_cases hek : e.1 = k
    · simp [List.cons_append, lookupCh_cons, hek]
    · simp [List.cons_append, lookupCh_cons, hek, ih]

theorem mem_insertSet_self (x : List Char) (xs : List (List Char)) :
    x ∈ insertSet x xs := by
  unfold insertSet
  by_cases h : x ∈ xs
  · simpa [h]
  · simp [h]

theorem lookupCh_isSome_find (chs : List (List Char × Channel)) (k : List Char) :
    (lookupCh chs k).isSome = (chs.find? (fun e => e.1 = k)).isSome := by
  cases hf : chs.find? (fun e => e.1 = k) <;> simp [lookupCh, hf]

theorem lookupCh_join_self (chs : List (List Char × Channel)) (chan who : List Char) :
    lookupCh (joinChannels chs chan who) chan =
      some (match lookupCh chs chan with
            | some c => ⟨c.name, insertSet who c.users⟩
            | none => ⟨chan, insertSet who []⟩) := by
  unfold joinChannels
  by_cases h : (chs.find? (fun e => e.1 = chan)).isSome
  · rw [if_pos h]
    rw [lookupCh_mapUpdate (fun c => ⟨c.name, insertSet who c.users⟩) chan chan chs]
    have hs : (lookupCh chs chan).isSome = true := by
      rw [lookupCh_isSome_find]; exact h
    cases hl : lookupCh chs chan with
    | some c => simp
    | none => rw [hl] at hs; simp at hs
  · rw [if_neg h]
    rw [lookupCh_append_one chan chan ⟨chan, insertSet who []⟩ chs]
    have hn : chs.find? (fun e => e.1 = chan) = none := by
      cases hf : chs.find? (fun e => e.1 = chan) with
      | none => rfl
      | some e => rw [hf] at h; simp at h
    have hn2 : lookupCh chs chan = none := by simp [lookupCh, hn]
    rw [hn2]
    simp

theorem lookupCh_join_isSome (chs : List (List Char × Channel)) (chan who k : List Char)
    (h : (lookupCh chs k).isSome = true) :
    (lookupCh (joinChannels chs chan who) k).isSome = true := by
  unfold joinChannels
  by_cases hp : (chs.find? (fun e => e.1 = chan)).isSome
  · rw [if_pos hp]
    rw [lookupCh_mapUpdate (fun c => ⟨c.name, insertSet who c.users⟩) chan k chs]
    cases hl : lookupCh chs k with
    | some c => simp
    | none => rw [hl] at h; simp at h
  · rw [if_neg hp]
    rw [lookupCh_append_one chan k ⟨chan, insertSet who []⟩ chs]
    cases hl : lookupCh chs k with
    | some c => simp
    | none => rw [hl] at h; simp at h

theorem lookupCh_part (chs : List (List Char × Channel)) (chan who k : List Char) :
    lookupCh (partChannels chs chan who) k =
      match lookupCh chs k with
      | some c => some (if k = chan then ⟨c.name, c.users.filter (fun u => u ≠ who)⟩ else c)
      | none => none := by
  unfold partChannels
  exact lookupCh_mapUpdate (fun c => ⟨c.name, c.users.filter (fun u => u ≠ who)⟩) chan k chs

/-! ## Lemmas for the proto parse/serialize round trip -/

theorem take_until_fst_not_mem (ch : Char) : ∀ s : List Char, ch ∉ (take_until ch s).1 := by
  intro s
  induction s with
  | nil => simp [take_until]
  | cons c rest ih =>
    by_cases h : c = ch
    · simp [take_until, h]
    · simp only [take_until, if_neg h, List.mem_cons, not_or]
      exact ⟨fun hh => h hh.symm, ih⟩

theorem take_until_append (ch : Char) (ys : List Char) :
    ∀ xs : List Char, ch ∉ xs → take_until ch (xs ++ ch :: ys) = (xs, ys) := by
  intro xs
  induction xs with
  | nil => intro _; simp [take_until]
  | cons x t ih =>
    intro h
    have hx : ¬ x = ch := fun hh => h (hh ▸ List.mem_cons_self x t)
    have ht : ch ∉ t := fun hh => h (List.mem_cons_of_mem x hh)
    simp [take_until, hx, ih ht]

theorem take_until_not_mem (ch : Char) :
    ∀ s : List Char, ch ∉ s → take_until ch s = (s, []) := by
  intro s
  induction s with
  | nil => intro _; rfl
  | cons c t ih =>
    intro h
    have hx : ¬ c = ch := fun hh => h (hh ▸ List.mem_cons_self c t)
    have ht : ch ∉ t := fun hh => h (List.mem_cons_of_mem c hh)
    simp [take_until, hx, ih ht]

theorem take_until_mem_fst (ch c : Char) :
    ∀ s : List Char, c ∈ (take_until ch s).1 → c ∈ s := by
  intro s
  induction s with
  | nil => simp [take_until]
  | cons x t ih =>
    by_cases h : x = ch
    · simp [take_until, h]
    · simp only [take_until, if_neg h, List.mem_cons]
      rintro (rfl | hm)
      · exact Or.inl rfl
      · exact Or.inr (ih hm)

theorem take_until_mem_snd (ch c : Char) :
    ∀ s : List Char, c ∈ (take_until ch s).2 → c ∈ s := by
  intro s
  induction s with
  | nil => simp [take_until]
  | cons x t ih =>
    by_cases h : x = ch
    · simp only [take_until, if_pos h]
      exact fun hm => List.mem_cons_of_mem x hm
    · simp only [take_until, if_neg h]
      exact fun hm => List.mem_cons_of_mem x (ih hm)

theorem take_until_fst_head (ch : Char) (s : List Char)
    (h : (take_until ch s).1 ≠ []) : (take_until ch s).1.head? = s.head? := by
  cases s with
  | nil => simp [take_until] at h
  | cons c t =>
    by_cases hc : c = ch
    · simp [take_until, hc] at h
    · simp [take_until, hc]

theorem splitOnChar_ne_nil (ch : Char) : ∀ s : List Char, splitOnChar ch s ≠ [] := by
  intro s
  cases s with
  | nil => simp [splitOnChar]
  | cons c rest =>
    by_cases h : c = ch
    · simp [splitOnChar, h]
    · simp only [splitOnChar, if_neg h]
      cases hrec : splitOnChar ch rest <;> simp

theorem splitOnChar_mem_not (ch : Char) :
    ∀ s p : List Char, p ∈ splitOnChar ch s → ch ∉ p := by
  intro s
  induction s with
  | nil => intro p hp; simp [splitOnChar] at hp; simp [hp]
  | cons c rest ih =>
    intro p hp
    by_cases h : c = ch
    · simp only [splitOnChar, if_pos h, List.mem_cons] at hp
      rcases hp with rfl | hp
      · simp
      · exact ih p hp
    · simp only [splitOnChar, if_neg h] at hp
      cases hrec : splitOnChar ch rest with
      | nil => exact absurd hrec (splitOnChar_ne_nil ch rest)
      | cons q qs =>
        rw [hrec] at hp
        rcases List.mem_cons.mp hp with rfl | hp2
        · have hq : ch ∉ q := ih q (by rw [hrec]; exact List.mem_cons_self q qs)
          simp only [List.mem_cons, not_or]
          exact ⟨fun hh => h hh.symm, hq⟩
        · exact ih p (by rw [hrec]; exact List.mem_cons_of_mem q hp2)

theorem splitOnChar_mem_sub (ch c : Char) :
    ∀ s p : List Char, p ∈ splitOnChar ch s → c ∈ p → c ∈ s := by
  intro s
  induction s with
  | nil => intro p hp hc; simp [splitOnChar] at hp; subst hp; simp at hc
  | cons x rest ih =>
    intro p hp hc
    by_cases h : x = ch
    · simp only [splitOnChar, if_pos h, List.mem_cons] at hp
      rcases hp with rfl | hp
      · simp at hc
      · exact List.mem_cons_of_mem x (ih p hp hc)
    · simp only [splitOnChar, if_neg h] at hp
      cases hrec : splitOnChar ch rest with
      | nil => exact absurd hrec (splitOnChar_ne_nil ch rest)
      | cons q qs =>
        rw [hrec] at hp
        rcases List.mem_cons.mp hp with rfl | hp2
        · rcases List.mem_cons.mp hc with rfl | hc2
          · exact List.mem_cons_self c rest
          · exact List.mem_cons_of_mem x
              (ih q (by rw [hrec]; exact List.mem_cons_self q qs) hc2)
        · exact List.mem_cons_of_mem x
            (ih p (by rw [hrec]; exact List.mem_cons_of_mem q hp2) hc)

theorem splitOnChar_no (ch : Char) :
    ∀ s : List Char, ch ∉ s → splitOnChar ch s = [s] := by
  intro s
  induction s with
  | nil => intro _; rfl
  | cons c t ih =>
    intro h
    have hx : ¬ c = ch := fun hh => h (hh ▸ List.mem_cons_self c t)
    have ht : ch ∉ t := fun hh => h (List.mem_cons_of_mem c hh)
    simp [splitOnChar, hx, ih ht]

theorem splitOnChar_append (ch : Char) (t : List Char) :
    ∀ p : List Char, ch ∉ p →
      splitOnChar ch (p ++ ch :: t) = p :: splitOnChar ch t := by
  intro p
  induction p with
  | nil => intro _; simp [splitOnChar]
  | cons x xs ih =>
    intro h
    have hx : ¬ x = ch := fun hh => h (hh ▸ List.mem_cons_self x xs)
    have hxs : ch ∉ xs := fun hh => h (List.mem_cons_of_mem x hh)
    simp [splitOnChar, hx, ih hxs]

theorem joinSep_not_mem (ch c : Char) (hcc : c ≠ ch) :
    ∀ ps : List (List Char), (∀ p ∈ ps, c ∉ p) → c ∉ joinSep ch ps := by
  intro ps
  induction ps with
  | nil => intro _; simp [joinSep]
  | cons p ps ih =>
    intro h
    cases ps with
    | nil => simpa [joinSep] using h p (List.mem_cons_self p [])
    | cons q qs =>
      show c ∉ p ++ ch :: joinSep ch (q :: qs)
      simp only [List.mem_append, List.mem_cons, not_or]
      exact ⟨h p (List.mem_cons_self p _), hcc,
        ih (fun r hr => h r (List.mem_cons_of_mem p hr))⟩

theorem splitOnChar_joinSep (ch : Char) :
    ∀ ps : List (List Char), ps ≠ [] → (∀ p ∈ ps, ch ∉ p) →
      splitOnChar ch (joinSep ch ps) = ps := by
  intro ps
  induction ps with
  | nil => intro h; exact absurd rfl h
  | cons p ps ih =>
    intro _ h
    cases ps with
    | nil => exact splitOnChar_no ch p (h p (List.mem_cons_self p []))
    | cons q qs =>
      show splitOnChar ch (p ++ ch :: joinSep ch (q :: qs)) = p :: q :: qs
      rw [splitOnChar_append ch _ p (h p (List.mem_cons_self p _))]
      rw [ih (by simp) (fun r hr => h r (List.mem_cons_of_mem p hr))]

theorem head?_append_left {α : Type} (xs ys : List α) (h : xs ≠ []) :
    (xs ++ ys).head? = xs.head? := by
  cases xs with
  | nil => exact absurd rfl h
  | cons c t => rfl

theorem getLast?_append_right {α : Type} (xs ys : List α) (h : ys ≠ []) :
    (xs ++ ys).getLast? = ys.getLast? := by
  rw [← List.head?_reverse, List.reverse_append,
    head?_append_left ys.reverse xs.reverse (by simpa using h), List.head?_reverse]

theorem getLast?_cons_of_ne_nil {α : Type} (a : α) (l : List α) (h : l ≠ []) :
    (a :: l).getLast? = l.getLast? := by
  rw [← List.head?_reverse, List.reverse_cons,
    head?_append_left l.reverse [a] (by simpa using h), List.head?_reverse]

theorem dropLast_cons_of_ne_nil {α : Type} (a : α) (l : List α) (h : l ≠ []) :
    (a :: l).dropLast = a :: l.dropLast := by
  cases l with
  | nil => exact absurd rfl h
  | cons b t => rfl

theorem trimEndCrlf_append (X : List Char)
    (h : ∀ c, X.getLast? = some c → ¬ (c = '\r' ∨ c = '\n')) :
    trimEndCrlf (X ++ ['\r', '\n']) = X := by
  unfold trimEndCrlf
  rw [List.reverse_append]
  have h2 : (['\r', '\n'] : List Char).reverse = ['\n', '\r'] := rfl
  rw [h2, List.cons_append, List.cons_append, List.nil_append]
  rw [List.dropWhile_cons, if_pos (by decide), List.dropWhile_cons, if_pos (by decide)]
  cases hx : X.reverse with
  | nil =>
    have hX : X = [] := by simpa using congrArg List.reverse hx
    simp [hx, hX]
  | cons c t =>
    have hc : X.getLast? = some c := by rw [← List.head?_reverse, hx]; rfl
    rw [List.dropWhile_cons, if_neg (by simp [h c hc])]
    rw [← hx, List.reverse_reverse]

theorem parseTagPart_render (k : List Char) (v : Option (List Char))
    (hk : '=' ∉ k) : parseTagPart (renderTagPart (k, v)) = (k, v) := by
  cases v with
  | none => simp [renderTagPart, parseTagPart, hk]
  | some v =>
    have hm : '=' ∈ k ++ '=' :: v := List.mem_append.mpr (Or.inr (List.mem_cons_self _ _))
    simp [renderTagPart, parseTagPart, hm, take_until_append '=' v k hk]

theorem renderTagPart_not_mem (c : Char) (hc : c ≠ '=') (k : List Char)
    (v : Option (List Char)) (hk : c ∉ k) (hv : ∀ w, v = some w → c ∉ w) :
    c ∉ renderTagPart (k, v) := by
  cases v with
  | none => exact hk
  | some w =>
    show c ∉ k ++ '=' :: w
    simp only [List.mem_append, List.mem_cons, not_or]
    exact ⟨hk, hc, hv w rfl⟩

theorem parseTags_render :
    ∀ ps : List (List Char × Option (List Char)), ps ≠ [] →
      (∀ kv ∈ ps, ';' ∉ kv.1 ∧ '=' ∉ kv.1 ∧ ∀ v, kv.2 = some v → ';' ∉ v) →
      (splitOnChar ';' (renderTags ps)).map parseTagPart = ps := by
  intro ps hne h
  unfold renderTags
  rw [splitOnChar_joinSep ';' (ps.map renderTagPart) (by simpa using hne)]
  · rw [List.map_map]
    have : ∀ kv ∈ ps, (parseTagPart ∘ renderTagPart) kv = id kv := by
      intro kv hkv
      obtain ⟨k, v⟩ := kv
      exact parseTagPart_render k v (h (k, v) hkv).2.1
    rw [List.map_congr_left this, List.map_id]
  · intro piece hpiece
    obtain ⟨kv, hkv, rfl⟩ := List.mem_map.mp hpiece
    obtain ⟨k, v⟩ := kv
    exact renderTagPart_not_mem ';' (by decide) k v (h (k, v) hkv).1
      (fun w hw => (h (k, v) hkv).2.2 w hw)

theorem renderTags_nosp (ps : List (List Char × Option (List Char)))
    (h : ∀ kv ∈ ps, ' ' ∉ kv.1 ∧ ∀ v, kv.2 = some v → ' ' ∉ v) :
    ' ' ∉ renderTags ps := by
  unfold renderTags
  apply joinSep_not_mem ';' ' ' (by decide)
  intro piece hpiece
  obtain ⟨kv, hkv, rfl⟩ := List.mem_map.mp hpiece
  obtain ⟨k, v⟩ := kv
  exact renderTagPart_not_mem ' ' (by decide) k v (h (k, v) hkv).1
    (fun w hw => (h (k, v) hkv).2 w hw)

/-! Parameter-section lemmas -/

/-- The last parameter of a nonempty parameter list. -/
def lastOf (p : List Char) : List (List Char) → List Char
  | [] => p
  | q :: qs => lastOf q qs

theorem getLast?_eq_lastOf : ∀ (ps : List (List Char)) (p : List Char),
    (p :: ps).getLast? = some (lastOf p ps) := by
  intro ps
  induction ps with
  | nil => intro p; rfl
  | cons q qs ih =>
    intro p
    rw [getLast?_cons_of_ne_nil _ _ (by simp)]
    exact ih q

theorem renderParams_cons : ∀ (ps : List (List Char)) (p : List Char),
    renderParams (p :: ps) = ' ' :: paramsBody p ps := by
  intro ps
  induction ps with
  | nil => intro p; rfl
  | cons q qs ih =>
    intro p
    show ' ' :: (p ++ renderParams (q :: qs)) = ' ' :: (p ++ ' ' :: paramsBody q qs)
    rw [ih q]

theorem renderLastParam_ne_nil (p : List Char) : renderLastParam p ≠ [] := by
  unfold renderLastParam
  by_cases h : ' ' ∈ p ∨ p = []
  · simp [h]
  · simp only [h, if_false, reduceIte]
    intro hcon
    exact (not_or.mp h).2 hcon

theorem paramsBody_ne_nil : ∀ (ps : List (List Char)) (p : List Char),
    paramsBody p ps ≠ [] := by
  intro ps
  cases ps with
  | nil => intro p; exact renderLastParam_ne_nil p
  | cons q qs => intro p; simp [paramsBody]

theorem renderLastParam_getLast? (p : List Char) :
    (renderLastParam p).getLast? = if p = [] then some ':' else p.getLast? := by
  unfold renderLastParam
  by_cases h0 : p = []
  · simp [h0]
  · by_cases hsp : ' ' ∈ p ∨ p = []
    · rw [if_pos hsp, getLast?_cons_of_ne_nil ':' p h0, if_neg h0]
    · rw [if_neg hsp, if_neg h0]

theorem paramsBody_getLast? : ∀ (ps : List (List Char)) (p : List Char),
    (paramsBody p ps).getLast? = (renderLastParam (lastOf p ps)).getLast? := by
  intro ps
  induction ps with
  | nil => intro p; rfl
  | cons q qs ih =>
    intro p
    show (p ++ ' ' :: paramsBody q qs).getLast? = _
    rw [getLast?_append_right p _ (by simp),
      getLast?_cons_of_ne_nil ' ' _ (paramsBody_ne_nil qs q)]
    exact ih q

theorem parseParams_body :
    ∀ (ps : List (List Char)) (p : List Char),
      (∀ q ∈ (p :: ps).dropLast, q ≠ [] ∧ ' ' ∉ q ∧ q.head? ≠ some ':') →
      (lastOf p ps ≠ [] → ' ' ∉ lastOf p ps → (lastOf p ps).head? ≠ some ':') →
      parseParams (paramsBody p ps) = p :: ps := by
  intro ps
  induction ps with
  | nil =>
    intro p _ hlast
    show parseParams (renderLastParam p) = [p]
    unfold renderLastParam
    by_cases hsig : ' ' ∈ p ∨ p = []
    · rw [if_pos hsig, parseParams_eq]
      simp
    · push_neg at hsig
      rw [if_neg (by simpa using hsig)]
      rw [parseParams_eq, if_neg hsig.2]
      have hcol : ¬ p.head? = some ':' := hlast hsig.2 hsig.1
      rw [if_neg hcol, take_until_not_mem ' ' p hsig.1]
      simp [hsig.2, parseParams, parseParamsGo]
  | cons q qs ih =>
    intro p hinit hlast
    have hdl : (p :: q :: qs).dropLast = p :: (q :: qs).dropLast :=
      dropLast_cons_of_ne_nil p (q :: qs) (by simp)
    obtain ⟨hpne, hpnosp, hpcol⟩ :=
      hinit p (by rw [hdl]; exact List.mem_cons_self _ _)
    show parseParams (p ++ ' ' :: paramsBody q qs) = p :: q :: qs
    rw [parseParams_eq]
    have hne : ¬ p ++ ' ' :: paramsBody q qs = [] := by simp
    rw [if_neg hne]
    have hhead : (p ++ ' ' :: paramsBody q qs).head? = p.head? :=
      head?_append_left p _ hpne
    rw [if_neg (by rw [hhead]; exact hpcol)]
    rw [take_until_append ' ' (paramsBody q qs) p hpnosp]
    dsimp only
    rw [if_neg hpne]
    congr 1
    apply ih q
    · intro r hr
      exact hinit r (by rw [hdl]; exact List.mem_cons_of_mem p hr)
    · exact hlast

theorem parseParams_init_fuel :
    ∀ n : Nat, ∀ r : List Char, r.length ≤ n →
      ∀ q ∈ (parseParams r).dropLast, q ≠ [] ∧ ' ' ∉ q ∧ q.head? ≠ some ':' := by
  intro n
  induction n using Nat.strong_induction_on with
  | _ n ih =>
    intro r hn q hq
    rw [parseParams_eq] at hq
    by_cases h0 : r = []
    · rw [if_pos h0] at hq; simp at hq
    rw [if_neg h0] at hq
    by_cases hcol : r.head? = some ':'
    · rw [if_pos hcol] at hq; simp at hq
    rw [if_neg hcol] at hq
    have hlt := take_until_snd_lt ' ' r h0
    by_cases hp : (take_until ' ' r).1 = []
    · rw [if_pos hp] at hq
      exact ih ((take_until ' ' r).2.length) (by omega) _ (le_refl _) q hq
    · rw [if_neg hp] at hq
      cases hps : parseParams ((take_until ' ' r).2) with
      | nil => rw [hps] at hq; simp at hq
      | cons a as =>
        rw [hps, dropLast_cons_of_ne_nil _ _ (by simp)] at hq
        rcases List.mem_cons.mp hq with rfl | hq2
        · refine ⟨hp, take_until_fst_not_mem ' ' r, ?_⟩
          rw [take_until_fst_head ' ' r hp]
          exact hcol
        · apply ih ((take_until ' ' r).2.length) (by omega) _ (le_refl _) q
          rw [hps]
          exact hq2

theorem parseTagsStage_fst_none (s : List Char) (h : (parseTagsStage s).1 = none) :
    (parseTagsStage s).2 = s ∧ s.head? ≠ some '@' := by
  by_cases hat : s.head? = some '@'
  · rw [parseTagsStage, if_pos hat] at h
    exact absurd h (by simp)
  · rw [parseTagsStage, if_neg hat]
    exact ⟨rfl, hat⟩

theorem parseTagsStage_fst_some (s : List Char) (tg : Tags)
    (h : (parseTagsStage s).1 = some tg) :
    tg.pairs = (splitOnChar ';' (take_until ' ' s.tail).1).map parseTagPart ∧
    (parseTagsStage s).2 = (take_until ' ' s.tail).2 := by
  by_cases hat : s.head? = some '@'
  · rw [parseTagsStage, if_pos hat] at h ⊢
    simp only [Option.some.injEq] at h
    exact ⟨by rw [← h], rfl⟩
  · rw [parseTagsStage, if_neg hat] at h
    exact absurd h (by simp)

theorem parsePrefixStage_fst_none (s : List Char) (h : (parsePrefixStage s).1 = none) :
    (parsePrefixStage s).2 = s ∧ s.head? ≠ some ':' := by
  by_cases hcl : s.head? = some ':'
  · rw [parsePrefixStage, if_pos hcl] at h
    exact absurd h (by simp)
  · rw [parsePrefixStage, if_neg hcl]
    exact ⟨rfl, hcl⟩

theorem parsePrefixStage_fst_some (s : List Char) (pf : Pfx)
    (h : (parsePrefixStage s).1 = some pf) :
    pf.raw = (take_until ' ' s.tail).1 ∧
    (parsePrefixStage s).2 = (take_until ' ' s.tail).2 := by
  by_cases hcl : s.head? = some ':'
  · rw [parsePrefixStage, if_pos hcl] at h ⊢
    simp only [Option.some.injEq] at h
    exact ⟨by rw [← h], rfl⟩
  · rw [parsePrefixStage, if_neg hcl] at h
    exact absurd h (by simp)

/-- Everything `parse_line` outputs satisfies the serializer's
invariants. -/
theorem parse_line_wf (L : List Char) (m : Message) (hL : parse_line L = some m) :
    MsgWf m := by
  unfold parse_line at hL
  dsimp only at hL
  by_cases hc : (take_until ' '
      (parsePrefixStage (parseTagsStage (trimEndCrlf L)).2).2).1 = []
  · rw [if_pos hc] at hL
    exact absurd hL (by simp)
  rw [if_neg hc] at hL
  simp only [Option.some.injEq] at hL
  subst hL
  constructor
  · exact hc
  · exact take_until_fst_not_mem ' ' _
  · intro hpf
    obtain ⟨hP2, hPcol⟩ := parsePrefixStage_fst_none _ hpf
    rw [take_until_fst_head ' ' _ hc, hP2]
    exact hPcol
  · intro htg hpf
    obtain ⟨hP2, _⟩ := parsePrefixStage_fst_none _ hpf
    obtain ⟨hT2, hTat⟩ := parseTagsStage_fst_none _ htg
    rw [take_until_fst_head ' ' _ hc, hP2, hT2]
    exact hTat
  · intro tg htg
    obtain ⟨hpairs, _⟩ := parseTagsStage_fst_some _ tg htg
    rw [hpairs]
    intro hcon
    rcases List.map_eq_nil.mp hcon with hsplit
    exact splitOnChar_ne_nil ';' _ hsplit
  · intro tg htg kv hkv
    obtain ⟨hpairs, _⟩ := parseTagsStage_fst_some _ tg htg
    rw [hpairs] at hkv
    obtain ⟨part, hpart, hkveq⟩ := List.mem_map.mp hkv
    have hsemi : ';' ∉ part := splitOnChar_mem_not ';' _ part hpart
    have hspace : ' ' ∉ part := fun hsp =>
      take_until_fst_not_mem ' ' ((trimEndCrlf L).tail)
        (splitOnChar_mem_sub ';' ' ' _ part hpart hsp)
    subst hkveq
    unfold parseTagPart
    by_cases heq : '=' ∈ part
    · rw [if_pos heq]
      refine ⟨?_, ?_, take_until_fst_not_mem '=' part, ?_⟩
      · exact fun hm => hspace (take_until_mem_fst '=' ' ' part hm)
      · exact fun hm => hsemi (take_until_mem_fst '=' ';' part hm)
      · intro v hv
        simp only [Option.some.injEq] at hv
        subst hv
        exact ⟨fun hm => hspace (take_until_mem_snd '=' ' ' part hm),
               fun hm => hsemi (take_until_mem_snd '=' ';' part hm)⟩
    · rw [if_neg heq]
      exact ⟨hspace, hsemi, heq, fun v hv => absurd hv (by simp)⟩
  · intro pf hpf
    obtain ⟨hraw, _⟩ := parsePrefixStage_fst_some _ pf hpf
    rw [hraw]
    exact take_until_fst_not_mem ' ' _
  · intro q hq
    exact parseParams_init_fuel
      ((take_until ' ' (parsePrefixStage (parseTagsStage (trimEndCrlf L)).2).2).2.length)
      _ (le_refl _) q hq

theorem parseTagsStage_tagged (TR Y : List Char) (hTR : ' ' ∉ TR) :
    parseTagsStage ('@' :: ((TR ++ [' ']) ++ Y)) =
      (some ⟨(splitOnChar ';' TR).map parseTagPart⟩, Y) := by
  unfold parseTagsStage
  have hcond : ('@' :: ((TR ++ [' ']) ++ Y)).head? = some '@' := rfl
  rw [if_pos hcond, List.tail_cons]
  have he : (TR ++ [' ']) ++ Y = TR ++ ' ' :: Y := by simp
  rw [he, take_until_append ' ' Y TR hTR]

theorem parseTagsStage_untagged (X : List Char) (h : ¬ X.head? = some '@') :
    parseTagsStage X = (none, X) := by
  unfold parseTagsStage
  rw [if_neg h]

theorem parsePrefixStage_pfx (raw Y : List Char) (hraw : ' ' ∉ raw) :
    parsePrefixStage (':' :: ((raw ++ [' ']) ++ Y)) = (some ⟨raw⟩, Y) := by
  unfold parsePrefixStage
  have hcond : (':' :: ((raw ++ [' ']) ++ Y)).head? = some ':' := rfl
  rw [if_pos hcond, List.tail_cons]
  have he : (raw ++ [' ']) ++ Y = raw ++ ' ' :: Y := by simp
  rw [he, take_until_append ' ' Y raw hraw]

theorem parsePrefixStage_no (X : List Char) (h : ¬ X.head? = some ':') :
    parsePrefixStage X = (none, X) := by
  unfold parsePrefixStage
  rw [if_neg h]

/-- Assembling `parse_line` from the three stage results. -/
theorem parse_line_assemble (L1 X1 X2 X3 Rb : List Char) (tg : Option Tags)
    (pf : Option Pfx) (cmd : List Char) (ps : List (List Char))
    (h0 : trimEndCrlf L1 = X1)
    (hT : parseTagsStage X1 = (tg, X2))
    (hP : parsePrefixStage X2 = (pf, X3))
    (hC : take_until ' ' X3 = (cmd, Rb))
    (hcmd : ¬ cmd = [])
    (hps : parseParams Rb = ps) :
    parse_line L1 = some ⟨tg, pf, cmd, ps⟩ := by
  unfold parse_line
  dsimp only
  rw [h0, hT, hP, hC]
  dsimp only
  rw [if_neg hcmd, hps]

/-- The serializer round trip: any message satisfying the parse
invariants and the two boundary side conditions reparses to itself. -/
theorem to_line_roundtrip (m : Message) (hwf : MsgWf m)
    (hlast : lastPOkB m = true) (hend : goodEndB m = true) :
    parse_line (to_line m) = some m := by
  obtain ⟨tg, pf, cmd, ps⟩ := m
  obtain ⟨cmdne, cmdnosp, cmdnocolon, cmdnoat, tagsne, tagswf, pfxnosp, initwf⟩ := hwf
  dsimp only at cmdne cmdnosp cmdnocolon cmdnoat tagsne tagswf pfxnosp initwf
  have hX3ne : ¬ cmd ++ renderParams ps = [] := by
    cases cmd with
    | nil => exact absurd rfl cmdne
    | cons c t => simp
  -- the final token of the rendered line is CR/LF-free
  have hlastchar : ∀ c, (cmd ++ renderParams ps).getLast? = some c →
      ¬ (c = '\r' ∨ c = '\n') := by
    cases ps with
    | nil =>
      intro c hcl
      unfold goodEndB at hend
      simp only [List.getLast?_nil] at hend
      rw [show (renderParams [] : List Char) = [] from rfl, List.append_nil] at hcl
      rw [hcl] at hend
      simpa using hend
    | cons p ps1 =>
      intro c hcl
      unfold goodEndB at hend
      rw [getLast?_eq_lastOf] at hend
      dsimp only at hend
      rw [renderParams_cons,
        getLast?_append_right cmd _ (by simp),
        getLast?_cons_of_ne_nil ' ' _ (paramsBody_ne_nil ps1 p),
        paramsBody_getLast?, renderLastParam_getLast?] at hcl
      by_cases hlp : lastOf p ps1 = []
      · rw [if_pos hlp] at hcl
        simp only [Option.some.injEq] at hcl
        subst hcl
        decide
      · rw [if_neg hlp] at hcl
        rw [hcl] at hend
        simpa using hend
  -- command and parameters stage
  have hCps : ∃ Rb, take_until ' ' (cmd ++ renderParams ps) = (cmd, Rb) ∧
      parseParams Rb = ps := by
    cases ps with
    | nil =>
      refine ⟨[], ?_, rfl⟩
      rw [show (renderParams [] : List Char) = [] from rfl, List.append_nil]
      exact take_until_not_mem ' ' cmd cmdnosp
    | cons p ps1 =>
      refine ⟨paramsBody p ps1, ?_, ?_⟩
      · rw [renderParams_cons]
        exact take_until_append ' ' _ cmd cmdnosp
      · apply parseParams_body ps1 p initwf
        intro h1 h2
        unfold lastPOkB at hlast
        rw [getLast?_eq_lastOf] at hlast
        dsimp only at hlast
        rw [if_pos ⟨h1, h2⟩] at hlast
        simpa using hlast
  obtain ⟨Rb, hC, hps⟩ := hCps
  -- head of the command section
  have hcmdhead : (cmd ++ renderParams ps).head? = cmd.head? :=
    head?_append_left cmd _ cmdne
  cases tg with
  | none =>
    cases pf with
    | none =>
      apply parse_line_assemble _ (cmd ++ renderParams ps) (cmd ++ renderParams ps)
        (cmd ++ renderParams ps) Rb none none cmd ps ?_ ?_ ?_ hC cmdne hps
      · show trimEndCrlf ((cmd ++ renderParams ps) ++ ['\r', '\n']) =
          cmd ++ renderParams ps
        exact trimEndCrlf_append _ hlastchar
      · apply parseTagsStage_untagged
        rw [hcmdhead]
        exact cmdnoat rfl rfl
      · apply parsePrefixStage_no
        rw [hcmdhead]
        exact cmdnocolon rfl
    | some pfv =>
      apply parse_line_assemble _
        (':' :: ((pfv.raw ++ [' ']) ++ (cmd ++ renderParams ps)))
        (':' :: ((pfv.raw ++ [' ']) ++ (cmd ++ renderParams ps)))
        (cmd ++ renderParams ps) Rb none (some pfv) cmd ps ?_ ?_ ?_ hC cmdne hps
      · show trimEndCrlf ((((':' :: (pfv.raw ++ [' '])) ++ cmd) ++ renderParams ps) ++
          ['\r', '\n']) = ':' :: ((pfv.raw ++ [' ']) ++ (cmd ++ renderParams ps))
        rw [show ((':' :: (pfv.raw ++ [' '])) ++ cmd) ++ renderParams ps =
          ':' :: ((pfv.raw ++ [' ']) ++ (cmd ++ renderParams ps)) by simp]
        apply trimEndCrlf_append
        intro c hcl
        rw [getLast?_cons_of_ne_nil ':' _ (by simp),
          getLast?_append_right _ _ hX3ne] at hcl
        exact hlastchar c hcl
      · apply parseTagsStage_untagged
        simp
      · exact parsePrefixStage_pfx pfv.raw _ (pfxnosp pfv rfl)
  | some t =>
    have htagsp : ' ' ∉ renderTags t.pairs :=
      renderTags_nosp t.pairs (fun kv hkv =>
        ⟨(tagswf t rfl kv hkv).1, fun v hv => ((tagswf t rfl kv hkv).2.2.2 v hv).1⟩)
    have htagsr : (splitOnChar ';' (renderTags t.pairs)).map parseTagPart = t.pairs :=
      parseTags_render t.pairs (tagsne t rfl) (fun kv hkv =>
        ⟨(tagswf t rfl kv hkv).2.1, (tagswf t rfl kv hkv).2.2.1,
         fun v hv => ((tagswf t rfl kv hkv).2.2.2 v hv).2⟩)
    cases pf with
    | none =>
      apply parse_line_assemble _
        ('@' :: ((renderTags t.pairs ++ [' ']) ++ (cmd ++ renderParams ps)))
        (cmd ++ renderParams ps)
        (cmd ++ renderParams ps) Rb (some t) none cmd ps ?_ ?_ ?_ hC cmdne hps
      · show trimEndCrlf (((('@' :: ((renderTags t.pairs ++ [' ']) ++ [])) ++ cmd) ++
          renderParams ps) ++ ['\r', '\n']) =
          '@' :: ((renderTags t.pairs ++ [' ']) ++ (cmd ++ renderParams ps))
        rw [show (('@' :: ((renderTags t.pairs ++ [' ']) ++ [])) ++ cmd) ++
            renderParams ps =
          '@' :: ((renderTags t.pairs ++ [' ']) ++ (cmd ++ renderParams ps)) by simp]
        apply trimEndCrlf_append
        intro c hcl
        rw [getLast?_cons_of_ne_nil '@' _ (by simp),
          getLast?_append_right _ _ hX3ne] at hcl
        exact hlastchar c hcl
      · rw [parseTagsStage_tagged (renderTags t.pairs) _ htagsp, htagsr]
      · apply parsePrefixStage_no
        rw [hcmdhead]
        exact cmdnocolon rfl
    | some pfv =>
      apply parse_line_assemble _
        ('@' :: ((renderTags t.pairs ++ [' ']) ++
          (':' :: ((pfv.raw ++ [' ']) ++ (cmd ++ renderParams ps)))))
        (':' :: ((pfv.raw ++ [' ']) ++ (cmd ++ renderParams ps)))
        (cmd ++ renderParams ps) Rb (some t) (some pfv) cmd ps ?_ ?_ ?_ hC cmdne hps
      · show trimEndCrlf ((((('@' :: (renderTags t.pairs ++ [' '])) ++
            (':' :: (pfv.raw ++ [' ']))) ++ cmd) ++ renderParams ps) ++
          ['\r', '\n']) =
          '@' :: ((renderTags t.pairs ++ [' ']) ++
            (':' :: ((pfv.raw ++ [' ']) ++ (cmd ++ renderParams ps))))
        rw [show ((('@' :: (renderTags t.pairs ++ [' '])) ++
            (':' :: (pfv.raw ++ [' ']))) ++ cmd) ++ renderParams ps =
          '@' :: ((renderTags t.pairs ++ [' ']) ++
            (':' :: ((pfv.raw ++ [' ']) ++ (cmd ++ renderParams ps)))) by simp]
        apply trimEndCrlf_append
        intro c hcl
        rw [getLast?_cons_of_ne_nil '@' _ (by simp),
          getLast?_append_right _ _ (by simp),
          getLast?_cons_of_ne_nil ':' _ (by simp),
          getLast?_append_right _ _ hX3ne] at hcl
        exact hlastchar c hcl
      · rw [parseTagsStage_tagged (renderTags t.pairs) _ htagsp, htagsr]
      · exact parsePrefixStage_pfx pfv.raw _ (pfxnosp pfv rfl)

/-! ## Claim C6 — `send_raw` and CRLF -/

/-- Claim C6, counterexample: for a line already ending in CRLF,
`send_raw` does not write it unchanged — it appends a second CRLF
unconditionally. -/
theorem send_raw_crlf_counterexample :
    send_raw_bytes (str "PING\r\n") = strBytes (str "PING\r\n\r\n") ∧
    send_raw_bytes (str "PING\r\n") ≠ strBytes (str "PING\r\n") := by
  decide

/-- Claim C6, amended: `send_raw` appends CRLF to every line
unconditionally (so the written bytes always differ from the bare
line), with no check for an existing trailing CRLF. -/
theorem send_raw_always_appends (line : List Char) :
    send_raw_bytes line = strBytes line ++ [13, 10] ∧
    send_raw_bytes line ≠ strBytes line := by
  refine ⟨rfl, fun h => ?_⟩
  have hlen := congrArg List.length h
  simp only [send_raw_bytes, List.length_append, List.length_cons,
    List.length_nil] at hlen
  omega

/-! ## Claim C8 — SCRAM iteration count is parsed as `u32` -/

/-- Claim C8: the code parses `i=` with `v.parse::<u32>()`, so an
iteration count of `2^32` is rejected while `2^32 - 1` is accepted;
the spec demands that any positive integer be accepted. -/
theorem scram_iteration_count_u32_bound :
    parse_scram_challenge (str "r=abc,s=AA==,i=4294967296") =
      .error .badIterations ∧
    parse_scram_challenge (str "r=abc,s=AA==,i=4294967295") =
      .ok ⟨[0], 4294967295, str "abc"⟩ :=
  ⟨rfl, rfl⟩

/-! ## Claim C9 — PRIVMSG/NOTICE are pure event emissions -/

/-- Claim C9: for a `PRIVMSG` or `NOTICE` message, `Engine::on_message`
leaves the whole `ServerState` unchanged and emits the corresponding
event built from the prefix nick and the first two parameters. -/
theorem on_message_privmsg_notice_frame (st : ServerState) (msg : Message)
    (h : msg.command = str "PRIVMSG" ∨ msg.command = str "NOTICE") :
    (on_message st msg).1 = st ∧
    (msg.command = str "PRIVMSG" →
      (on_message st msg).2 = .privMsg (msgNick msg) ((msg.params.get? 0).getD [])
        ((msg.params.get? 1).getD [])) ∧
    (msg.command = str "NOTICE" →
      (on_message st msg).2 = .notice (msgNick msg) ((msg.params.get? 0).getD [])
        ((msg.params.get? 1).getD [])) := by
  rcases h with h | h
  · have h1 : ¬ msg.command = str "001" := by rw [h]; decide
    have h2 : ¬ msg.command = str "JOIN" := by rw [h]; decide
    have h3 : ¬ msg.command = str "PART" := by rw [h]; decide
    refine ⟨?_, fun _ => ?_, fun hn => absurd (h.symm.trans hn) (by decide)⟩ <;>
      · unfold on_message
        rw [if_neg h1, if_neg h2, if_neg h3, if_pos h]
  · have h1 : ¬ msg.command = str "001" := by rw [h]; decide
    have h2 : ¬ msg.command = str "JOIN" := by rw [h]; decide
    have h3 : ¬ msg.command = str "PART" := by rw [h]; decide
    have h4 : ¬ msg.command = str "PRIVMSG" := by rw [h]; decide
    refine ⟨?_, fun hp => absurd (hp.symm.trans h) (by decide), fun _ => ?_⟩ <;>
      · unfold on_message
        rw [if_neg h1, if_neg h2, if_neg h3, if_neg h4, if_pos h]

/-- Witness for C9 at a concrete `PRIVMSG`. -/
theorem on_message_privmsg_notice_frame_witness :
    (on_message ⟨str "net", str "me", []⟩
        ⟨none, some ⟨str "n!u@h"⟩, str "PRIVMSG", [str "#c", str "hi"]⟩).1 =
      ⟨str "net", str "me", []⟩ ∧
    (Message.command ⟨none, some ⟨str "n!u@h"⟩, str "PRIVMSG", [str "#c", str "hi"]⟩ =
        str "PRIVMSG" →
      (on_message ⟨str "net", str "me", []⟩
          ⟨none, some ⟨str "n!u@h"⟩, str "PRIVMSG", [str "#c", str "hi"]⟩).2 =
        .privMsg (msgNick ⟨none, some ⟨str "n!u@h"⟩, str "PRIVMSG", [str "#c", str "hi"]⟩)
          ((List.get? [str "#c", str "hi"] 0).getD [])
          ((List.get? [str "#c", str "hi"] 1).getD [])) ∧
    (Message.command ⟨none, some ⟨str "n!u@h"⟩, str "PRIVMSG", [str "#c", str "hi"]⟩ =
        str "NOTICE" →
      (on_message ⟨str "net", str "me", []⟩
          ⟨none, some ⟨str "n!u@h"⟩, str "PRIVMSG", [str "#c", str "hi"]⟩).2 =
        .notice (msgNick ⟨none, some ⟨str "n!u@h"⟩, str "PRIVMSG", [str "#c", str "hi"]⟩)
          ((List.get? [str "#c", str "hi"] 0).getD [])
          ((List.get? [str "#c", str "hi"] 1).getD [])) :=
  on_message_privmsg_notice_frame ⟨str "net", str "me", []⟩
    ⟨none, some ⟨str "n!u@h"⟩, str "PRIVMSG", [str "#c", str "hi"]⟩ (Or.inl rfl)

/-! ## Claim C10 — the channel map grows monotonically -/

/-- Claim C10: `on_message` never removes a channel entry: every key
present before is present after, and a `PART` for an existing channel
keeps the entry, only filtering the departing nick out of its user
set. -/
theorem on_message_channels_monotone (st : ServerState) (msg : Message) (k : List Char)
    (h : (lookupCh st.channels k).isSome = true) :
    (lookupCh (on_message st msg).1.channels k).isSome = true ∧
    (msg.command = str "PART" →
      ∀ c, lookupCh st.channels ((msg.params.head?).getD []) = some c →
        lookupCh (on_message st msg).1.channels ((msg.params.head?).getD []) =
          some ⟨c.name, c.users.filter (fun u => u ≠ msgNick msg)⟩) := by
  constructor
  · unfold on_message
    by_cases h1 : msg.command = str "001"
    · rw [if_pos h1]; exact h
    by_cases h2 : msg.command = str "JOIN"
    · rw [if_neg h1, if_pos h2]
      exact lookupCh_join_isSome st.channels _ _ k h
    by_cases h3 : msg.command = str "PART"
    · rw [if_neg h1, if_neg h2, if_pos h3]
      show (lookupCh (partChannels st.channels ((msg.params.head?).getD [])
        (msgNick msg)) k).isSome = true
      rw [lookupCh_part]
      cases hl : lookupCh st.channels k with
      | some c => simp
      | none => rw [hl] at h; simp at h
    by_cases h4 : msg.command = str "PRIVMSG"
    · rw [if_neg h1, if_neg h2, if_neg h3, if_pos h4]; exact h
    by_cases h5 : msg.command = str "NOTICE"
    · rw [if_neg h1, if_neg h2, if_neg h3, if_neg h4, if_pos h5]; exact h
    by_cases h6 : msg.command = str "332"
    · rw [if_neg h1, if_neg h2, if_neg h3, if_neg h4, if_neg h5, if_pos h6]; exact h
    · rw [if_neg h1, if_neg h2, if_neg h3, if_neg h4, if_neg h5, if_neg h6]; exact h
  · intro hp c hc
    have h1 : ¬ msg.command = str "001" := by rw [hp]; decide
    have h2 : ¬ msg.command = str "JOIN" := by rw [hp]; decide
    unfold on_message
    rw [if_neg h1, if_neg h2, if_pos hp]
    show lookupCh (partChannels st.channels ((msg.params.head?).getD [])
      (msgNick msg)) ((msg.params.head?).getD []) = _
    rw [lookupCh_part, hc]
    simp

/-- Witness for C10: a state owning `#x`, hit by a `PART` for `#x`. -/
theorem on_message_channels_monotone_witness :
    (lookupCh (on_message ⟨[], [], [(str "#x", ⟨str "#x", [str "a"]⟩)]⟩
        ⟨none, some ⟨str "a!u@h"⟩, str "PART", [str "#x"]⟩).1.channels (str "#x")).isSome =
      true ∧
    (Message.command ⟨none, some ⟨str "a!u@h"⟩, str "PART", [str "#x"]⟩ = str "PART" →
      ∀ c, lookupCh [(str "#x", ⟨str "#x", [str "a"]⟩)]
          ((List.head? [str "#x"]).getD []) = some c →
        lookupCh (on_message ⟨[], [], [(str "#x", ⟨str "#x", [str "a"]⟩)]⟩
            ⟨none, some ⟨str "a!u@h"⟩, str "PART", [str "#x"]⟩).1.channels
            ((List.head? [str "#x"]).getD []) =
          some ⟨c.name, c.users.filter (fun u => u ≠
            msgNick ⟨none, some ⟨str "a!u@h"⟩, str "PART", [str "#x"]⟩)⟩) :=
  on_message_channels_monotone ⟨[], [], [(str "#x", ⟨str "#x", [str "a"]⟩)]⟩
    ⟨none, some ⟨str "a!u@h"⟩, str "PART", [str "#x"]⟩ (str "#x") (by decide)

/-! ## Claim C7 — JOIN/PART roster bookkeeping -/

/-- Claim C7: folding `:a!u@h JOIN #r`, `:b!u@h JOIN #r`,
`:a!u@h PART #r` from a state with no channels leaves `#r` with user
set `{b}`; in general JOIN inserts the prefix nick into the channel's
user set (creating the entry if needed) and PART removes it. -/
theorem engine_join_part_roster (net nk : List Char) (st : ServerState) (mJ mP : Message)
    (hJ : mJ.command = str "JOIN") (hP : mP.command = str "PART") :
    parse_line (str ":a!u@h JOIN #r") =
      some ⟨none, some ⟨str "a!u@h"⟩, str "JOIN", [str "#r"]⟩ ∧
    parse_line (str ":b!u@h JOIN #r") =
      some ⟨none, some ⟨str "b!u@h"⟩, str "JOIN", [str "#r"]⟩ ∧
    parse_line (str ":a!u@h PART #r") =
      some ⟨none, some ⟨str "a!u@h"⟩, str "PART", [str "#r"]⟩ ∧
    ((on_message (on_message (on_message ⟨net, nk, []⟩
        ⟨none, some ⟨str "a!u@h"⟩, str "JOIN", [str "#r"]⟩).1
        ⟨none, some ⟨str "b!u@h"⟩, str "JOIN", [str "#r"]⟩).1
        ⟨none, some ⟨str "a!u@h"⟩, str "PART", [str "#r"]⟩).1).channels =
      [(str "#r", ⟨str "#r", [str "b"]⟩)] ∧
    (∃ c, lookupCh (on_message st mJ).1.channels ((mJ.params.getLast?).getD []) =
        some c ∧ msgNick mJ ∈ c.users) ∧
    (∀ c, lookupCh (on_message st mP).1.channels ((mP.params.head?).getD []) =
        some c → msgNick mP ∉ c.users) := by
  refine ⟨by decide, by decide, by decide, ?_, ?_, ?_⟩
  · have e1 : (on_message ⟨net, nk, []⟩
        ⟨none, some ⟨str "a!u@h"⟩, str "JOIN", [str "#r"]⟩).1 =
        ⟨net, nk, [(str "#r", ⟨str "#r", [str "a"]⟩)]⟩ := by
      unfold on_message
      rw [if_neg (by decide), if_pos (by decide)]
      rfl
    have e2 : (on_message ⟨net, nk, [(str "#r", ⟨str "#r", [str "a"]⟩)]⟩
        ⟨none, some ⟨str "b!u@h"⟩, str "JOIN", [str "#r"]⟩).1 =
        ⟨net, nk, [(str "#r", ⟨str "#r", [str "a", str "b"]⟩)]⟩ := by
      unfold on_message
      rw [if_neg (by decide), if_pos (by decide)]
      rfl
    have e3 : (on_message ⟨net, nk, [(str "#r", ⟨str "#r", [str "a", str "b"]⟩)]⟩
        ⟨none, some ⟨str "a!u@h"⟩, str "PART", [str "#r"]⟩).1 =
        ⟨net, nk, [(str "#r", ⟨str "#r", [str "b"]⟩)]⟩ := by
      unfold on_message
      rw [if_neg (by decide), if_neg (by decide), if_pos (by decide)]
      rfl
    rw [e1, e2, e3]
  · have h1 : ¬ mJ.command = str "001" := by rw [hJ]; decide
    unfold on_message
    rw [if_neg h1, if_pos hJ]
    show ∃ c, lookupCh (joinChannels st.channels ((mJ.params.getLast?).getD [])
      (msgNick mJ)) ((mJ.params.getLast?).getD []) = some c ∧ msgNick mJ ∈ c.users
    rw [lookupCh_join_self]
    refine ⟨_, rfl, ?_⟩
    cases hl : lookupCh st.channels ((mJ.params.getLast?).getD []) with
    | some c => exact mem_insertSet_self (msgNick mJ) c.users
    | none => exact mem_insertSet_self (msgNick mJ) []
  · intro c hc
    have h1 : ¬ mP.command = str "001" := by rw [hP]; decide
    have h2 : ¬ mP.command = str "JOIN" := by rw [hP]; decide
    have hch : (on_message st mP).1.channels =
        partChannels st.channels ((mP.params.head?).getD []) (msgNick mP) := by
      unfold on_message
      rw [if_neg h1, if_neg h2, if_pos hP]
    rw [hch, lookupCh_part] at hc
    cases hl : lookupCh st.channels ((mP.params.head?).getD []) with
    | some c0 =>
      rw [hl] at hc
      simp only [if_pos rfl, Option.some.injEq] at hc
      rw [← hc]
      simp [List.mem_filter]
    | none => rw [hl] at hc; simp at hc

/-- Witness for C7: the general JOIN conjunct at a concrete message. -/
theorem engine_join_part_roster_witness :
    ∃ c, lookupCh (on_message ⟨[], [], []⟩
        ⟨none, some ⟨str "a!u@h"⟩, str "JOIN", [str "#r"]⟩).1.channels
        ((List.getLast? [str "#r"]).getD []) = some c ∧
      msgNick ⟨none, some ⟨str "a!u@h"⟩, str "JOIN", [str "#r"]⟩ ∈ c.users :=
  (engine_join_part_roster [] [] ⟨[], [], []⟩
    ⟨none, some ⟨str "a!u@h"⟩, str "JOIN", [str "#r"]⟩
    ⟨none, some ⟨str "a!u@h"⟩, str "PART", [str "#r"]⟩ rfl rfl).2.2.2.2.1

/-! ## Claim C5 — registration kickoff precedes all reads -/

/-- The loop of `negotiate` produces a reactive trace: one block per
received message, whose sends are exactly the handler's reaction. -/
theorem negotiateLoop_reactive (cr : Crypto) (tlsep : Option (List Nat))
    (want : List (List Char)) (sasl : Option SaslMech) :
    ∀ (script : List Message) (st : NegoSt),
      ReactiveTrace cr tlsep want sasl st
        (negotiateLoop cr tlsep want sasl script st).1 := by
  intro script
  induction script with
  | nil =>
    intro st
    exact ReactiveTrace.nil st
  | cons m rest ih =>
    intro st
    cases h : (handleMsg cr tlsep want sasl st m).2.2 with
    | cont =>
      have ht : (negotiateLoop cr tlsep want sasl (m :: rest) st).1 =
          Ev.recv m :: ((handleMsg cr tlsep want sasl st m).1.map Ev.send ++
            (negotiateLoop cr tlsep want sasl rest
              (handleMsg cr tlsep want sasl st m).2.1).1) := by
        simp [negotiateLoop, h]
      rw [ht]
      exact ReactiveTrace.block st m _ (ih _)
    | done =>
      have ht : (negotiateLoop cr tlsep want sasl (m :: rest) st).1 =
          Ev.recv m :: ((handleMsg cr tlsep want sasl st m).1.map Ev.send ++ []) := by
        simp [negotiateLoop, h]
      rw [ht]
      exact ReactiveTrace.block st m []
        (ReactiveTrace.nil (handleMsg cr tlsep want sasl st m).2.1)
    | fail e =>
      have ht : (negotiateLoop cr tlsep want sasl (m :: rest) st).1 =
          Ev.recv m :: ((handleMsg cr tlsep want sasl st m).1.map Ev.send ++ []) := by
        simp [negotiateLoop, h]
      rw [ht]
      exact ReactiveTrace.block st m []
        (ReactiveTrace.nil (handleMsg cr tlsep want sasl st m).2.1)

/-- Claim C5: every run of `negotiate` sends exactly
`NICK <nick>`, `USER <user> 0 * :<realname>`, `CAP LS 302`, in that
order, before any message is received; and the rest of the trace is a
sequence of blocks, each a received message followed by exactly the
lines sent in reaction to it — so every later send occurs only in
reaction to the just-received message. -/
theorem negotiate_kickoff_ordering (cr : Crypto) (tlsep : Option (List Nat))
    (want : List (List Char)) (sasl : Option SaslMech)
    (nick user realname : List Char) (nonces : List (List Char))
    (script : List Message) :
    ∃ t r, negotiate cr tlsep want sasl nick user realname nonces script =
        (Ev.send (str "NICK " ++ nick) ::
         Ev.send (str "USER " ++ user ++ str " 0 * :" ++ realname) ::
         Ev.send (str "CAP LS 302") :: t, r) ∧
      ReactiveTrace cr tlsep want sasl
        ⟨true, [], false, none, none, none, nonces⟩ t :=
  ⟨(negotiateLoop cr tlsep want sasl script
      ⟨true, [], false, none, none, none, nonces⟩).1,
   (negotiateLoop cr tlsep want sasl script
      ⟨true, [], false, none, none, none, nonces⟩).2,
   rfl,
   negotiateLoop_reactive cr tlsep want sasl script
     ⟨true, [], false, none, none, none, nonces⟩⟩

/-- Successful processing of a SCRAM-SHA-256 server-first challenge:
the exact line sent and the state stored (used by several claims). -/
theorem scram_step_ok_256 (cr : Crypto) (tlsep : Option (List Nat)) (pw : List Char)
    (st : NegoSt) (challenge : List Char) (parsed : ScramParsed)
    (cnonce cfb : List Char)
    (hparse : parse_scram_challenge challenge = .ok parsed)
    (hcn : st.scramClientNonce = some cnonce)
    (hpref : cnonce.isPrefixOf parsed.nonce = true)
    (hcfb : st.scramCfb = some cfb) :
    scram_step cr.hmac256 cr.h256 cr.pbkdf2sha256 (str "SHA-256")
      tlsep pw st challenge =
      .ok ([str "AUTHENTICATE " ++ encode64 (strBytes
            ((str "c=" ++ scram_cval tlsep ++ str ",r=" ++ parsed.nonce) ++ str ",p=" ++
              encode64 (scram_client_proof cr.hmac256 cr.h256
                (cr.pbkdf2sha256 (strBytes pw) parsed.salt parsed.iter)
                (scram_auth_message tlsep cfb challenge parsed.nonce))))],
          { st with scramState := some ⟨str "SHA-256",
              scram_auth_message tlsep cfb challenge parsed.nonce,
              scram_server_sig cr.hmac256
                (cr.pbkdf2sha256 (strBytes pw) parsed.salt parsed.iter)
                (scram_auth_message tlsep cfb challenge parsed.nonce)⟩ }) := by
  unfold scram_step
  rw [hparse, hcn, hcfb]
  simp [hpref]

/-! ## Claim C1 — server-signature (`v=`) verification -/

/-- Claim C1, counterexample: a standard SCRAM server-final challenge
`v=AAAA` (valid base64, decoding to a value different from the
precomputed expected signature `[9, 9]`) makes the `ScramSha256` arm
bail with a challenge-parse error (`missing salt`) before the `v=`
verification is ever reached: the result is neither
`SaslServerSignatureMismatch` nor preceded by a `CAP END`. -/
theorem scram_vcheck_counterexample :
    handleChallenge dummyCrypto none (some (.scramSha256 none (str "u") (str "pw")))
        ⟨true, [], true, some (str "n1"), some (str "n=u,r=n1"),
         some ⟨str "SHA-256", [], [9, 9]⟩, []⟩ (str "v=AAAA") =
      ([], ⟨true, [], true, some (str "n1"), some (str "n=u,r=n1"),
        some ⟨str "SHA-256", [], [9, 9]⟩, []⟩,
       .fail (.scramParse .missingSalt)) ∧
    decode64 (str "AAAA") = some [0, 0, 0] ∧
    NegErr.scramParse .missingSalt ≠ NegErr.serverSignatureMismatch := by
  refine ⟨rfl, rfl, by decide⟩

/-- Claim C1, amended: for a challenge that parses as a SCRAM
server-first (valid `s=`, `i=`, and an `r=` nonce extending the client
nonce) and contains a `v=` token, while CAP negotiation is in
progress: a decodable `v=` value differing from the freshly computed
expected server signature fails with `SaslServerSignatureMismatch` and
a malformed (non-base64) `v=` value fails with the protocol error, in
both cases after sending `CAP END`.  (Challenges with `v=` that do not
parse as a server-first fail earlier with a parse error and no
`CAP END`, per the counterexample.) -/
theorem scram_vcheck_after_serverfirst (cr : Crypto) (tlsep : Option (List Nat))
    (az : Option (List Char)) (u pw : List Char) (st : NegoSt) (challenge : List Char)
    (parsed : ScramParsed) (cnonce cfb : List Char) (pos : Nat)
    (hparse : parse_scram_challenge challenge = .ok parsed)
    (hcn : st.scramClientNonce = some cnonce)
    (hpref : cnonce.isPrefixOf parsed.nonce = true)
    (hcfb : st.scramCfb = some cfb)
    (hcap : st.capInProgress = true)
    (hfind : findSub (str "v=") challenge = some pos) :
    (∀ sig, decode64 ((challenge.drop (pos + 2)).takeWhile (fun c => c ≠ ',')) = some sig →
       sig ≠ scram_server_sig cr.hmac256
           (cr.pbkdf2sha256 (strBytes pw) parsed.salt parsed.iter)
           (scram_auth_message tlsep cfb challenge parsed.nonce) →
       ∃ sends st1,
         handleChallenge cr tlsep (some (.scramSha256 az u pw)) st challenge =
           (sends, st1, .fail .serverSignatureMismatch) ∧ str "CAP END" ∈ sends) ∧
    (decode64 ((challenge.drop (pos + 2)).takeWhile (fun c => c ≠ ',')) = none →
       ∃ sends st1,
         handleChallenge cr tlsep (some (.scramSha256 az u pw)) st challenge =
           (sends, st1, .fail .invalidServerSigB64) ∧ str "CAP END" ∈ sends) := by
  have hstep := scram_step_ok_256 cr tlsep pw st challenge parsed cnonce cfb
    hparse hcn hpref hcfb
  constructor
  · intro sig hsig hneq
    refine ⟨[str "AUTHENTICATE " ++ encode64 (strBytes
        ((str "c=" ++ scram_cval tlsep ++ str ",r=" ++ parsed.nonce) ++ str ",p=" ++
          encode64 (scram_client_proof cr.hmac256 cr.h256
            (cr.pbkdf2sha256 (strBytes pw) parsed.salt parsed.iter)
            (scram_auth_message tlsep cfb challenge parsed.nonce)))),
        str "CAP END"],
      { st with scramState := some ⟨str "SHA-256",
          scram_auth_message tlsep cfb challenge parsed.nonce,
          scram_server_sig cr.hmac256
            (cr.pbkdf2sha256 (strBytes pw) parsed.salt parsed.iter)
            (scram_auth_message tlsep cfb challenge parsed.nonce)⟩ }, ?_, by simp⟩
    unfold handleChallenge
    dsimp only
    rw [hstep, hfind]
    simp only [hsig, hcap]
    simp [hneq]
  · intro hnone
    refine ⟨[str "AUTHENTICATE " ++ encode64 (strBytes
        ((str "c=" ++ scram_cval tlsep ++ str ",r=" ++ parsed.nonce) ++ str ",p=" ++
          encode64 (scram_client_proof cr.hmac256 cr.h256
            (cr.pbkdf2sha256 (strBytes pw) parsed.salt parsed.iter)
            (scram_auth_message tlsep cfb challenge parsed.nonce)))),
        str "CAP END"],
      { st with scramState := some ⟨str "SHA-256",
          scram_auth_message tlsep cfb challenge parsed.nonce,
          scram_server_sig cr.hmac256
            (cr.pbkdf2sha256 (strBytes pw) parsed.salt parsed.iter)
            (scram_auth_message tlsep cfb challenge parsed.nonce)⟩ }, ?_, by simp⟩
    unfold handleChallenge
    dsimp only
    rw [hstep, hfind]
    simp only [hnone, hcap]
    simp

/-- Witness for the amended C1: a server-first with an appended
malformed `v=!` token aborts with the protocol error after `CAP END`. -/
theorem scram_vcheck_after_serverfirst_witness :
    ∃ sends st1, handleChallenge dummyCrypto none
        (some (.scramSha256 none (str "u") (str "pw")))
        ⟨true, [], true, some (str "n1"), some (str "n=u,r=n1"), none, []⟩
        (str "r=n1x,s=,i=1,v=!") =
      (sends, st1, .fail .invalidServerSigB64) ∧ str "CAP END" ∈ sends :=
  (scram_vcheck_after_serverfirst dummyCrypto none none (str "u") (str "pw")
    ⟨true, [], true, some (str "n1"), some (str "n=u,r=n1"), none, []⟩
    (str "r=n1x,s=,i=1,v=!") ⟨[], 1, str "n1x"⟩ (str "n1") (str "n=u,r=n1") 13
    rfl rfl rfl rfl rfl rfl).2 rfl

/-! ## Claim C4 — GS2 header and channel binding -/

/-- Claim C4: the SCRAM GS2 header is `p=tls-server-end-point,,` iff
channel-binding material is cached (else `n,,`); the client-first
message sent on `AUTHENTICATE +` is the base64 of that header plus the
client-first-bare; and in the client-final message the `c=` value
base64-decodes to the GS2 header bytes followed by the cached leaf
hash when bound, and to `n,,` when not. -/
theorem scram_gs2_and_cbind (cr : Crypto) (tlsep : Option (List Nat))
    (want : List (List Char)) (az : Option (List Char)) (u pw : List Char)
    (st : NegoSt) (cfb : List Char) (parsed : ScramParsed)
    (challenge cnonce : List Char)
    (hb : ∀ t ∈ tlsep, ∀ b ∈ t, b < 256)
    (hcfb : st.scramCfb = some cfb)
    (hparse : parse_scram_challenge challenge = .ok parsed)
    (hcn : st.scramClientNonce = some cnonce)
    (hpref : cnonce.isPrefixOf parsed.nonce = true) :
    (scram_gs2 tlsep = str "p=tls-server-end-point,," ↔ tlsep.isSome = true) ∧
    (tlsep.isSome = false → scram_gs2 tlsep = str "n,,") ∧
    (handleMsg cr tlsep want (some (.scramSha256 az u pw)) st
        ⟨none, none, str "AUTHENTICATE", [str "+"]⟩ =
      ([str "AUTHENTICATE " ++ encode64 (strBytes (scram_gs2 tlsep ++ cfb))],
       st, .cont)) ∧
    (scram_step cr.hmac256 cr.h256 cr.pbkdf2sha256 (str "SHA-256") tlsep pw st challenge =
      .ok ([str "AUTHENTICATE " ++ encode64 (strBytes
            ((str "c=" ++ scram_cval tlsep ++ str ",r=" ++ parsed.nonce) ++ str ",p=" ++
              encode64 (scram_client_proof cr.hmac256 cr.h256
                (cr.pbkdf2sha256 (strBytes pw) parsed.salt parsed.iter)
                (scram_auth_message tlsep cfb challenge parsed.nonce))))],
          { st with scramState := some ⟨str "SHA-256",
              scram_auth_message tlsep cfb challenge parsed.nonce,
              scram_server_sig cr.hmac256
                (cr.pbkdf2sha256 (strBytes pw) parsed.salt parsed.iter)
                (scram_auth_message tlsep cfb challenge parsed.nonce)⟩ })) ∧
    (∀ t, tlsep = some t →
      decode64 (scram_cval tlsep) =
        some (strBytes (str "p=tls-server-end-point,,") ++ t)) ∧
    (tlsep = none → decode64 (scram_cval tlsep) = some (strBytes (str "n,,"))) := by
  refine ⟨?_, ?_, ?_, ?_, ?_, ?_⟩
  · cases tlsep with
    | some t => simp [scram_gs2]
    | none => exact iff_of_false (by simp [scram_gs2]; decide) (by simp)
  · intro hs
    cases tlsep with
    | some t => simp at hs
    | none => rfl
  · unfold handleMsg
    dsimp only
    rw [if_neg (by decide), if_pos (by decide), if_pos (by decide), hcfb]
  · exact scram_step_ok_256 cr tlsep pw st challenge parsed cnonce cfb
      hparse hcn hpref hcfb
  · intro t ht
    subst ht
    show decode64 (encode64 (strBytes (str "p=tls-server-end-point,,") ++ t)) = _
    apply decode64_encode64
    intro b hbm
    rcases List.mem_append.mp hbm with hl | hr
    · have : ∀ b ∈ strBytes (str "p=tls-server-end-point,,"), b < 256 := by decide
      exact this b hl
    · exact hb t rfl b hr
  · intro ht
    subst ht
    show decode64 (encode64 (strBytes (str "n,,"))) = _
    apply decode64_encode64
    decide

/-- Witness for C4: with a two-byte leaf hash `[0, 255]`, the `c=`
value decodes back to the GS2 header bytes plus the hash. -/
theorem scram_gs2_and_cbind_witness :
    decode64 (scram_cval (some [0, 255])) =
      some (strBytes (str "p=tls-server-end-point,,") ++ [0, 255]) :=
  (scram_gs2_and_cbind dummyCrypto (some [0, 255]) [] none (str "u") (str "pw")
    ⟨true, [], true, some (str "n1"), some (str "n=u,r=n1"), none, []⟩
    (str "n=u,r=n1") ⟨[], 1, str "n1x"⟩ (str "r=n1x,s=,i=1") (str "n1")
    (by decide) rfl rfl rfl rfl).2.2.2.2.1 [0, 255] rfl

/-! ## Claim C3 — parse failures at the transport layer -/

/-- Claim C3, counterexample: with an empty line buffered ahead of a
valid `PING x` line, `next_message` returns a parse error for the empty
line instead of skipping it and returning the `PING` message: the code
propagates `Message::parse`'s error (`.context("parse IRC line failed")`),
it does not log and continue. -/
theorem nextMessage_no_skip_counterexample :
    nextMessage (strBytes (str "\r\nPING x\r\n")) [] = .error .parseFailed ∧
    parse_line (str "PING x") = some ⟨none, none, str "PING", [str "x"]⟩ :=
  ⟨rfl, rfl⟩

/-- Claim C3, amended: whenever the first complete line in the buffer
fails to parse, `next_message` returns an error for that call (parse
failures are fatal for the call, not skipped). -/
theorem nextMessage_parse_failure_fatal (buf : List Nat) (input : List (List Nat))
    (pos : Nat)
    (hpos : buf.findIdx? (fun b => b = 10) = some pos)
    (hbad : parse_line ((utf8Decode (bufLine buf pos)).getD []) = none) :
    nextMessage buf input = .error .parseFailed := by
  have hline : nextMessageLine buf input pos = .error .parseFailed := by
    unfold nextMessageLine
    rw [hbad]
  cases input with
  | nil => simp only [nextMessage, hpos]; exact hline
  | cons chunk rest => simp only [nextMessage, hpos]; exact hline

/-- Witness for the amended C3: a lone CRLF buffered line. -/
theorem nextMessage_parse_failure_fatal_witness :
    nextMessage (strBytes (str "\r\nJOIN #c\r\n")) [[72, 73, 10]] =
      .error .parseFailed :=
  nextMessage_parse_failure_fatal (strBytes (str "\r\nJOIN #c\r\n"))
    [[72, 73, 10]] 1 rfl rfl

/-! ## Claim C2 — parse/serialize round trip -/

/-- Claim C2, counterexample: the accepted line `CMD ::x` parses to a
message whose trailing parameter is `:x`; `to_line` renders it without
a second `:` sigil (it is nonempty and has no space), so reparsing
yields the different parameter `x`. -/
theorem roundtrip_counterexample :
    parse_line (str "CMD ::x") = some ⟨none, none, str "CMD", [str ":x"]⟩ ∧
    to_line ⟨none, none, str "CMD", [str ":x"]⟩ = str "CMD :x" ++ ['\r', '\n'] ∧
    parse_line (to_line ⟨none, none, str "CMD", [str ":x"]⟩) =
      some ⟨none, none, str "CMD", [str "x"]⟩ ∧
    (⟨none, none, str "CMD", [str "x"]⟩ : Message) ≠
      ⟨none, none, str "CMD", [str ":x"]⟩ := by
  refine ⟨rfl, rfl, rfl, by decide⟩

/-- Claim C2, amended: for every line the parser accepts, serializing
and reparsing returns the same message, provided (a) the final
parameter, when rendered bare (nonempty, no space), does not start
with `:`, and (b) the final rendered token does not end in CR or LF
(both excluded cases are genuine counterexamples, e.g. `CMD ::x`). -/
theorem parse_to_line_roundtrip (L : List Char) (m : Message)
    (hL : parse_line L = some m)
    (hlast : lastPOkB m = true) (hend : goodEndB m = true) :
    parse_line (to_line m) = some m :=
  to_line_roundtrip m (parse_line_wf L m hL) hlast hend

/-- Witness for the amended C2 on a tagged PRIVMSG line. -/
theorem parse_to_line_roundtrip_witness :
    parse_line (to_line ⟨some ⟨[(str "k", none), (str "t", some (str "1"))]⟩,
        some ⟨str "n!u@h"⟩, str "PRIVMSG", [str "#c", str "hey you"]⟩) =
      some ⟨some ⟨[(str "k", none), (str "t", some (str "1"))]⟩,
        some ⟨str "n!u@h"⟩, str "PRIVMSG", [str "#c", str "hey you"]⟩ :=
  parse_to_line_roundtrip (str "@k;t=1 :n!u@h PRIVMSG #c :hey you") _ rfl rfl rfl

end Hexchat
